import Mathlib

/-!
Verification development for the readme-docs-migration repository.

The repository is a Node.js batch converter that rewrites a tree of
Markdown/MDX documents into a target dialect: an admonition-to-callout text
pre-pass, a tree rewrite over raw-HTML nodes (script and event-handler
stripping, selective HTML lowering), a tabbed-content post-pass, image
resolution and rewriting, frontmatter reconstruction, a move-map placement
policy, and a per-document orchestration loop that isolates failures into an
audit log.

This file gives a shallow embedding of those parts of the source in Lean:
strings are modelled as lists of characters, the regex-based text transforms
are implemented as explicit scanners that mirror the backtracking behaviour
of the concrete patterns used in the source, and the orchestration loop is a
fold over documents threading an explicit run state.  Each claim about the
system is then stated and settled against these definitions.
-/

namespace DocsMigration

/-! ## Character and line utilities

JavaScript regular expressions classify whitespace with the class \s.  For
the ASCII inputs handled by this tool that class is space, tab, carriage
return, newline, vertical tab and form feed; we model exactly that set.
-/

/-- Membership in the JavaScript whitespace class \s, restricted to ASCII. -/
def isJsWs (c : Char) : Bool :=
  c = ' ' || c = '\t' || c = '\r' || c = '\n' || c = Char.ofNat 11 || c = Char.ofNat 12

/-- Split a character list at every occurrence of a separator character.
The result is never empty and concatenating it back with the separator
recovers the input (see the lemmas below). -/
def splitOnCh (sep : Char) : List Char → List (List Char)
  | [] => [[]]
  | c :: cs =>
    if c = sep then [] :: splitOnCh sep cs
    else
      match splitOnCh sep cs with
      | [] => [[c]]
      | l :: ls => (c :: l) :: ls

/-- Join a list of character lists with a separator character, inverse of
splitOnCh on separator-free pieces. -/
def joinCh (sep : Char) : List (List Char) → List Char
  | [] => []
  | [l] => l
  | l :: l2 :: ls => l ++ sep :: joinCh sep (l2 :: ls)

theorem splitOnCh_ne_nil (sep : Char) (cs : List Char) : splitOnCh sep cs ≠ [] := by
  induction cs with
  | nil => simp [splitOnCh]
  | cons c cs ih =>
    by_cases h : c = sep
    · simp [splitOnCh, h]
    · simp only [splitOnCh, if_neg h]
      cases hs : splitOnCh sep cs with
      | nil => simp
      | cons l ls => simp

theorem not_mem_of_mem_splitOnCh (sep : Char) (cs : List Char) :
    ∀ l ∈ splitOnCh sep cs, sep ∉ l := by
  induction cs with
  | nil =>
    intro l hl
    simp only [splitOnCh, List.mem_singleton] at hl
    subst hl
    simp
  | cons c cs ih =>
    intro l hl
    by_cases h : c = sep
    · simp only [splitOnCh, if_pos h, List.mem_cons] at hl
      rcases hl with hl | hl
      · subst hl; simp
      · exact ih l hl
    · simp only [splitOnCh, if_neg h] at hl
      cases hs : splitOnCh sep cs with
      | nil => rw [hs] at hl; simp at hl; subst hl; simp [Ne.symm h]
      | cons m ms =>
        rw [hs] at hl
        simp only [List.mem_cons] at hl
        rcases hl with hl | hl
        · subst hl
          have hm : sep ∉ m := ih m (by rw [hs]; exact List.mem_cons_self m ms)
          simp [Ne.symm h, hm]
        · exact ih l (by rw [hs]; exact List.mem_cons_of_mem m hl)

theorem joinCh_splitOnCh (sep : Char) (cs : List Char) :
    joinCh sep (splitOnCh sep cs) = cs := by
  induction cs with
  | nil => simp [splitOnCh, joinCh]
  | cons c cs ih =>
    by_cases h : c = sep
    · subst h
      simp only [splitOnCh, if_pos rfl]
      cases hs : splitOnCh c cs with
      | nil => exact absurd hs (splitOnCh_ne_nil c cs)
      | cons l ls =>
        rw [hs] at ih
        simp [joinCh, ih]
    · simp only [splitOnCh, if_neg h]
      cases hs : splitOnCh sep cs with
      | nil => exact absurd hs (splitOnCh_ne_nil sep cs)
      | cons l ls =>
        rw [hs] at ih
        cases ls with
        | nil => simp_all [joinCh]
        | cons l2 ls2 => simp_all [joinCh]

theorem splitOnCh_not_mem (sep : Char) (l : List Char) (h : sep ∉ l) :
    splitOnCh sep l = [l] := by
  induction l with
  | nil => simp [splitOnCh]
  | cons c cs ih =>
    have hc : ¬ c = sep := by intro hc; exact h (by simp [hc])
    have hcs : sep ∉ cs := by intro hm; exact h (List.mem_cons_of_mem _ hm)
    simp [splitOnCh, hc, ih hcs]

theorem splitOnCh_append_sep (sep : Char) (l rest : List Char) (h : sep ∉ l) :
    splitOnCh sep (l ++ sep :: rest) = l :: splitOnCh sep rest := by
  induction l with
  | nil => simp [splitOnCh]
  | cons c cs ih =>
    have hc : ¬ c = sep := by intro hc; exact h (by simp [hc])
    have hcs : sep ∉ cs := by intro hm; exact h (List.mem_cons_of_mem _ hm)
    have hrec := ih hcs
    simp only [List.cons_append, splitOnCh, if_neg hc]
    simp [hrec]

theorem splitOnCh_joinCh (sep : Char) (ls : List (List Char))
    (hne : ls ≠ []) (h : ∀ l ∈ ls, sep ∉ l) :
    splitOnCh sep (joinCh sep ls) = ls := by
  induction ls with
  | nil => exact absurd rfl hne
  | cons l ls ih =>
    cases ls with
    | nil =>
      simp only [joinCh]
      exact splitOnCh_not_mem sep l (h l (List.mem_cons_self _ _))
    | cons l2 ls2 =>
      have h1 : sep ∉ l := h l (List.mem_cons_self _ _)
      have h2 : ∀ m ∈ l2 :: ls2, sep ∉ m := by
        intro m hm; exact h m (List.mem_cons_of_mem _ hm)
      simp only [joinCh, splitOnCh_append_sep sep l _ h1]
      rw [ih (by simp) h2]

/-! ## JavaScript string trimming -/

/-- Drop trailing JavaScript whitespace. -/
def trimEndList (cs : List Char) : List Char :=
  (cs.reverse.dropWhile isJsWs).reverse

/-- Drop leading JavaScript whitespace (String.prototype.trimStart). -/
def trimStartList (cs : List Char) : List Char :=
  cs.dropWhile isJsWs

/-- Drop leading and trailing JavaScript whitespace (String.prototype.trim). -/
def trimList (cs : List Char) : List Char :=
  trimEndList (trimStartList cs)

/-- String-level JavaScript trim. -/
def jsTrim (s : String) : String :=
  ⟨trimList s.data⟩

theorem dropWhile_head_false {p : Char → Bool} {l : List Char} {c : Char} {cs : List Char}
    (h : l.dropWhile p = c :: cs) : p c = false := by
  induction l with
  | nil => simp [List.dropWhile] at h
  | cons a l ih =>
    by_cases ha : p a
    · exact ih (by simpa [List.dropWhile, ha] using h)
    · simp only [List.dropWhile, ha] at h
      cases h
      simpa using ha

theorem dropWhile_append_of_ne_nil {p : Char → Bool} {u : List Char}
    (h : u.dropWhile p ≠ []) (v : List Char) :
    (u ++ v).dropWhile p = u.dropWhile p ++ v := by
  induction u with
  | nil => simp [List.dropWhile] at h
  | cons a u ih =>
    by_cases ha : p a
    · have h2 : u.dropWhile p ≠ [] := by simpa [List.dropWhile, ha] using h
      simp [List.dropWhile, ha, ih h2]
    · simp [List.dropWhile, ha]

theorem trimEndList_ne_nil {cs : List Char} {a : Char}
    (ha : a ∈ cs) (hw : isJsWs a = false) : trimEndList cs ≠ [] := by
  intro h
  have : ∀ x ∈ cs.reverse, isJsWs x := by
    rw [← List.dropWhile_eq_nil_iff]
    simpa [trimEndList] using h
  have := this a (by simpa using ha)
  simp [this] at hw

theorem trimEndList_eq_append {cs : List Char} (h : trimEndList cs ≠ []) :
    ∃ front c, trimEndList cs = front ++ [c] ∧ isJsWs c = false := by
  unfold trimEndList at *
  cases hd : cs.reverse.dropWhile isJsWs with
  | nil => rw [hd] at h; simp at h
  | cons c rest =>
    refine ⟨rest.reverse, c, ?_, dropWhile_head_false hd⟩
    simp

theorem trimEndList_append {xs ys : List Char} (h : trimEndList ys ≠ []) :
    trimEndList (xs ++ ys) = xs ++ trimEndList ys := by
  have h2 : ys.reverse.dropWhile isJsWs ≠ [] := by
    intro h3; apply h; simp [trimEndList, h3]
  simp only [trimEndList, List.reverse_append]
  rw [dropWhile_append_of_ne_nil h2]
  simp

theorem trimList_of_head_not_ws {c : Char} {cs : List Char} (h : isJsWs c = false) :
    trimList (c :: cs) = trimEndList (c :: cs) := by
  simp [trimList, trimStartList, List.dropWhile, h]

/-! ## C10: shape of the written document

Source, pipeline.mjs (both pipeline versions, lines 236 and 745):
the final document is assembled as

  const finalDoc = (three-dash line + newline + yaml + three-dash line +
                    blank line + body).trim() + a newline

so the written text always begins with the frontmatter delimiter line and
always ends with exactly one trailing newline character.
-/

/-- Assembly of the final written document, from pipeline.mjs line 236 / 745:
the frontmatter block is glued in front of the body, the whole string is
trimmed and a single newline is appended. -/
def assembleFinalDoc (readmeYaml markdownBody : String) : String :=
  jsTrim ("---\n" ++ readmeYaml ++ "---\n\n" ++ markdownBody) ++ "\n"

/-- C10: for every successfully processed document, including one whose
transformed body is empty, the written output text begins with the
frontmatter delimiter line consisting of three dashes and ends with exactly
one trailing newline character (the character before the final newline is
not even whitespace), because the assembled frontmatter-plus-body string is
trimmed and a single newline appended before writing. -/
theorem C10_final_doc_shape (readmeYaml markdownBody : String) :
    ∃ front c,
      (assembleFinalDoc readmeYaml markdownBody).data = front ++ [c, '\n'] ∧
      isJsWs c = false ∧
      (assembleFinalDoc readmeYaml markdownBody).data.take 4 = ['-', '-', '-', '\n'] := by
  have hdata : (assembleFinalDoc readmeYaml markdownBody).data =
      trimList ('-' :: '-' :: '-' :: '\n' ::
        (readmeYaml.data ++ ('-' :: '-' :: '-' :: '\n' :: '\n' :: markdownBody.data))) ++ ['\n'] := by
    simp [assembleFinalDoc, jsTrim, String.data_append]
  have hsplit : '-' :: '-' :: '-' :: '\n' ::
      (readmeYaml.data ++ ('-' :: '-' :: '-' :: '\n' :: '\n' :: markdownBody.data)) =
      ('-' :: '-' :: '-' :: '\n' :: (readmeYaml.data ++ ['-', '-'])) ++
        ('-' :: '\n' :: '\n' :: markdownBody.data) := by
    simp
  have hne : trimEndList ('-' :: '\n' :: '\n' :: markdownBody.data) ≠ [] :=
    trimEndList_ne_nil (a := '-') (by simp) (by decide)
  obtain ⟨front2, c, hfc, hcw⟩ := trimEndList_eq_append hne
  have htrim : trimList ('-' :: '-' :: '-' :: '\n' ::
      (readmeYaml.data ++ ('-' :: '-' :: '-' :: '\n' :: '\n' :: markdownBody.data))) =
      ('-' :: '-' :: '-' :: '\n' :: (readmeYaml.data ++ ['-', '-'])) ++
        (front2 ++ [c]) := by
    rw [trimList_of_head_not_ws (by decide), hsplit, trimEndList_append hne, hfc]
  refine ⟨('-' :: '-' :: '-' :: '\n' :: (readmeYaml.data ++ ['-', '-'])) ++ front2, c, ?_, hcw, ?_⟩
  · rw [hdata, htrim]; simp
  · rw [hdata, htrim]; simp [List.take]

/-! ## C2: frontmatter reconstruction and title derivation

Sources:
  pipeline.mjs lines 149 to 156 (title chain and fresh frontmatter),
  pipeline.mjs lines 356 to 363 (buildReadmeFrontmatter),
  utils/frontmatter.mjs (buildReadmeFM, which ignores the customer
  frontmatter argument entirely).

The customer frontmatter is modelled with the two fields the title chain
reads, plus an opaque list of any further customer-supplied fields; the
output frontmatter record has exactly the four produced fields.  JavaScript
falsiness of a missing or empty string field is modelled by jsOrStr.
-/

/-- Customer-supplied frontmatter: the two fields read by the title chain
plus all remaining customer fields, which the code never looks at. -/
structure CustomerFM where
  sidebar_label : Option String
  title : Option String
  extra : List (String × String)
deriving DecidableEq

/-- The nested metadata object of the output frontmatter. -/
structure RobotsMeta where
  robots : String
deriving DecidableEq

/-- Output frontmatter record: exactly the four fields the tool produces. -/
structure ReadmeFM where
  title : String
  deprecated : Bool
  hidden : Bool
  metadata : RobotsMeta
deriving DecidableEq

/-- Embedding of buildReadmeFM from src/utils/frontmatter.mjs: the customer
frontmatter argument is ignored and a fresh four-field record is built. -/
def buildReadmeFM (_customerFM : CustomerFM) (title : String) : ReadmeFM :=
  ⟨title, false, false, ⟨"index"⟩⟩

/-- JavaScript a || b for an optional string a: a missing field and an empty
string are both falsy. -/
def jsOrStr (a : Option String) (b : String) : String :=
  match a with
  | some s => if s = "" then b else s
  | none => b

/-- Tail of the heading regex, the part after the hash character.  The
source regex is (start of line) ws* hash ws+ (lazy dot plus) ws* (end of
line) with the multiline flag, where the whitespace class may cross line
breaks but the dot may not.  Given the characters after the hash, this
returns the trimmed captured group of the leftmost match, or none when the
tail cannot match at this hash at all:
the greedy ws+ run after the hash stops at the first non-whitespace
character, which starts the captured group, and the group extends to the
end of that line, right-trimmed; when the whitespace run instead reaches
the end of input, the engine backtracks and captures a single
non-newline whitespace character when one exists (trimming to the empty
string), and fails otherwise. -/
def h1Tail (cs : List Char) : Option String :=
  match cs with
  | [] => none
  | c :: _ =>
    if isJsWs c = false then none
    else
      let rest := cs.dropWhile isJsWs
      match rest with
      | [] =>
        if (cs.takeWhile isJsWs).any (fun a => a ≠ '\n') then some "" else none
      | _ :: _ =>
        some ⟨trimList (rest.takeWhile (fun a => a ≠ '\n'))⟩

/-- Scan for the first hash character whose own line prefix is entirely
whitespace and whose heading tail matches; the flag records whether every
character seen since the last newline was whitespace. -/
def firstH1Aux (atLinePrefixWs : Bool) : List Char → Option String
  | [] => none
  | c :: cs =>
    if c = '\n' then firstH1Aux true cs
    else if c = '#' && atLinePrefixWs then
      match h1Tail cs with
      | some t => some t
      | none => firstH1Aux false cs
    else firstH1Aux (atLinePrefixWs && isJsWs c) cs

/-- Embedding of bodyContent.match of the level-1 heading regex followed by
group extraction and trimming, from pipeline.mjs line 152. -/
def firstH1 (bodyContent : String) : Option String :=
  firstH1Aux true bodyContent.data

/-- Embedding of the title chain of pipeline.mjs lines 149 to 153. -/
def deriveTitle (fm : CustomerFM) (bodyContent : String) : String :=
  jsOrStr fm.sidebar_label (jsOrStr fm.title (jsOrStr (firstH1 bodyContent) "Untitled"))

/-- The four title candidates in the order named by the specification. -/
def specTitleCandidates (fm : CustomerFM) (bodyContent : String) : List String :=
  [fm.sidebar_label.getD "", fm.title.getD "", (firstH1 bodyContent).getD "", "Untitled"]

/-- First non-empty string of a list, the wording used by the claim. -/
def specFirstNonEmpty (l : List String) : String :=
  (l.find? (fun s => s != "")).getD ""

theorem jsOrStr_eq (a : Option String) (b : String) :
    jsOrStr a b = if a.getD "" = "" then b else a.getD "" := by
  cases a with
  | none => simp [jsOrStr]
  | some s => by_cases hs : s = "" <;> simp [jsOrStr, hs]

theorem specFirstNonEmpty_cons (x : String) (l : List String) :
    specFirstNonEmpty (x :: l) = if x = "" then specFirstNonEmpty l else x := by
  by_cases h : x = ""
  · simp [specFirstNonEmpty, List.find?, h]
  · have hb : (x != "") = true := bne_iff_ne.mpr h
    simp [specFirstNonEmpty, List.find?, hb, h]

theorem specFirstNonEmpty_untitled : specFirstNonEmpty ["Untitled"] = "Untitled" := by
  simp [specFirstNonEmpty, List.find?]

/-- C2: for every successfully processed document the output frontmatter is
exactly the four-field record title, deprecated false, hidden false and
nested metadata robots index; it does not depend on the customer-supplied
frontmatter in any way (so every other customer field is dropped, not
merged); and the derived title equals the first non-empty value among the
sidebar_label field, the title field, the text of the first level-1 heading
of the body, and the literal Untitled. -/
theorem C2_frontmatter_and_title (fm fm2 : CustomerFM) (bodyContent : String) :
    buildReadmeFM fm (deriveTitle fm bodyContent) =
      ⟨deriveTitle fm bodyContent, false, false, ⟨"index"⟩⟩ ∧
    buildReadmeFM fm2 (deriveTitle fm bodyContent) =
      buildReadmeFM fm (deriveTitle fm bodyContent) ∧
    deriveTitle fm bodyContent = specFirstNonEmpty (specTitleCandidates fm bodyContent) := by
  refine ⟨rfl, rfl, ?_⟩
  unfold deriveTitle specTitleCandidates
  rw [jsOrStr_eq, jsOrStr_eq, jsOrStr_eq,
    specFirstNonEmpty_cons, specFirstNonEmpty_cons, specFirstNonEmpty_cons,
    specFirstNonEmpty_untitled]

/-! ## C7: three-tier local image resolution

Source: src/images/indexer.mjs, resolveLocalImageSmart (lines 68 to 95)
and longestCommonSuffix (lines 97 to 107).

The image index maps normalized relative paths to absolute local paths and
bare filenames to candidate lists; both maps are modelled as association
lists with unique keys (JavaScript Map).  JavaScript truthiness of a lookup
result makes an empty-string value fall through, which getTruthy models.
The candidate sort of tier three uses Array.prototype.sort with the
comparator (a, b) => b.score - a.score; that sort is stable (ES2019), and
any stable descending insertion realizes the same result, which is how
sortScoredDesc models it.
-/

/-- The shared image index built once per run. -/
structure ImageIndex where
  byRelFromRoot : List (String × String)
  byBasename : List (String × List String)

/-- JavaScript replace of every backslash by a forward slash. -/
def normalizeSlashes (s : String) : String :=
  ⟨s.data.map (fun c => if c = '\\' then '/' else c)⟩

/-- JavaScript replace of the leading run of forward slashes by nothing. -/
def stripLeadingSlashes (s : String) : String :=
  ⟨s.data.dropWhile (fun c => c = '/')⟩

/-- Map lookup followed by the JavaScript truthiness test the source applies
to every lookup result: a missing key and an empty-string value both fail. -/
def getTruthy (m : List (String × String)) (k : String) : Option String :=
  match List.lookup k m with
  | some v => if v = "" then none else some v
  | none => none

/-- Split a path string at every forward slash. -/
def splitSlash (s : String) : List String :=
  (splitOnCh '/' s.data).map (fun l => ⟨l⟩)

/-- Join path components with forward slashes. -/
def joinSlash (parts : List String) : String :=
  ⟨joinCh '/' (parts.map String.data)⟩

/-- Embedding of longestCommonSuffix: the number of equal characters walking
both strings backwards from their ends. -/
def lcsAux : List Char → List Char → Nat
  | a :: as, b :: bs => if a = b then lcsAux as bs + 1 else 0
  | _, _ => 0

/-- Length of the longest common character suffix of two strings. -/
def longestCommonSuffix (a b : String) : Nat :=
  lcsAux a.data.reverse b.data.reverse

/-- Stable descending insertion for scored candidates: the new element goes
after every already-placed element with an equal or higher score. -/
def insertScoredDesc (x : String × Nat) : List (String × Nat) → List (String × Nat)
  | [] => [x]
  | y :: ys => if y.2 ≥ x.2 then y :: insertScoredDesc x ys else x :: y :: ys

/-- Stable descending sort by score, modelling the stable
Array.prototype.sort with the comparator (a, b) => b.score - a.score. -/
def sortScoredDesc (l : List (String × Nat)) : List (String × Nat) :=
  l.foldl (fun acc x => insertScoredDesc x acc) []

/-- First truthy hit of a key list against the relative-path table,
modelling the early return inside the suffix loop. -/
def firstTruthyHit (m : List (String × String)) : List String → Option String
  | [] => none
  | k :: ks =>
    match getTruthy m k with
    | some v => some v
    | none => firstTruthyHit m ks

/-- Candidate list of the basename fallback tier. -/
def basenameCandidates (parts : List String) (index : ImageIndex) : List String :=
  (List.lookup (parts.getLastD "") index.byBasename).getD []

/-- Tier three of the source: one candidate is returned directly, several
candidates are scored by common suffix with the reference and sorted
descending with the stable sort, the first being returned, and no candidate
yields the empty result. -/
def tier3Go (ref : String) (candidates : List String) : String :=
  if candidates.length = 1 then candidates.headD ""
  else if 1 < candidates.length then
    ((sortScoredDesc (candidates.map
      (fun abs => (abs, longestCommonSuffix (normalizeSlashes abs) ref)))).headD ("", 0)).1
  else ""

/-- The key list of the suffix loop of the source: joins of parts.drop i
for i running from zero to the number of components minus two. -/
def suffixLoopKeys (parts : List String) : List String :=
  (List.range (parts.length - 1)).map (fun i => joinSlash (parts.drop i))

/-- Tiers two and three of the source, given the already-normalized
reference. -/
def resolveTail (ref : String) (index : ImageIndex) : String :=
  match firstTruthyHit index.byRelFromRoot (suffixLoopKeys (splitSlash ref)) with
  | some v => v
  | none => tier3Go ref (basenameCandidates (splitSlash ref) index)

/-- Embedding of resolveLocalImageSmart from src/images/indexer.mjs: exact
match of the normalized reference, then the suffix loop with i running from
zero to the number of components minus two, then the basename fallback with
the stable descending sort on the common-suffix score. -/
def resolveLocalImageSmart (originalPath : String) (index : ImageIndex) : String :=
  if originalPath = "" then ""
  else
    match getTruthy index.byRelFromRoot (stripLeadingSlashes (normalizeSlashes originalPath)) with
    | some v => v
    | none => resolveTail (stripLeadingSlashes (normalizeSlashes originalPath)) index

/-- Specification-side choice of the best-scoring candidate: the first
candidate in input order whose score no later candidate strictly exceeds. -/
def specPickBest (score : String → Nat) (l : List String) : Option String :=
  l.foldl
    (fun best c =>
      match best with
      | none => some c
      | some b => if score b < score c then some c else some b)
    none

/-- The proper suffix keys named by the claim: joins of parts.drop i for i
running from one to the number of components minus two. -/
def properSuffixKeys (parts : List String) : List String :=
  ((List.range (parts.length - 1)).drop 1).map (fun i => joinSlash (parts.drop i))

/-- Tiers two and three in the wording of the claim. -/
def specResolveTail (ref : String) (index : ImageIndex) : String :=
  match firstTruthyHit index.byRelFromRoot (properSuffixKeys (splitSlash ref)) with
  | some v => v
  | none =>
    (specPickBest (fun abs => longestCommonSuffix (normalizeSlashes abs) ref)
      (basenameCandidates (splitSlash ref) index)).getD ""

/-- Specification-side resolution following the words of the claim: tier
one is the exact match of the reference with leading slashes stripped; tier
two tries the progressively shorter proper path suffixes of the reference;
tier three looks the bare filename up and picks the candidate with the
longest common character suffix, ties broken by input order; a reference
matched by no tier resolves to the empty result. -/
def specResolve (originalPath : String) (index : ImageIndex) : String :=
  if originalPath = "" then ""
  else
    match getTruthy index.byRelFromRoot (stripLeadingSlashes (normalizeSlashes originalPath)) with
    | some v => v
    | none => specResolveTail (stripLeadingSlashes (normalizeSlashes originalPath)) index

theorem head_insertScoredDesc (x : String × Nat) (acc : List (String × Nat)) :
    (insertScoredDesc x acc).head? =
      match acc.head? with
      | none => some x
      | some h => if h.2 ≥ x.2 then some h else some x := by
  cases acc with
  | nil => simp [insertScoredDesc]
  | cons y ys =>
    by_cases h : y.2 ≥ x.2 <;> simp [insertScoredDesc, h]

theorem head_foldl_insertScoredDesc (l : List (String × Nat)) :
    ∀ acc : List (String × Nat),
      ((l.foldl (fun a x => insertScoredDesc x a) acc).head?) =
        l.foldl
          (fun b x =>
            match b with
            | none => some x
            | some h => if h.2 ≥ x.2 then some h else some x)
          acc.head? := by
  induction l with
  | nil => intro acc; simp
  | cons x l ih =>
    intro acc
    simp only [List.foldl_cons]
    rw [ih (insertScoredDesc x acc), head_insertScoredDesc]

theorem specPickBest_map_pair (score : String → Nat) (l : List String) :
    ∀ b : Option String,
      ((l.map (fun c => (c, score c))).foldl
        (fun pb x =>
          match pb with
          | none => some x
          | some h => if h.2 ≥ x.2 then some h else some x)
        (b.map (fun c => (c, score c)))) =
      (l.foldl
        (fun best c =>
          match best with
          | none => some c
          | some bb => if score bb < score c then some c else some bb)
        b).map (fun c => (c, score c)) := by
  induction l with
  | nil => intro b; simp
  | cons c l ih =>
    intro b
    simp only [List.map_cons, List.foldl_cons]
    cases b with
    | none =>
      have := ih (some c)
      simpa using this
    | some s =>
      by_cases h : score s ≥ score c
      · have hlt : ¬ score s < score c := by omega
        have := ih (some s)
        simp only [Option.map_some] at this
        simpa [h, hlt] using this
      · have hlt : score s < score c := by omega
        have := ih (some c)
        simp only [Option.map_some] at this
        simpa [h, hlt] using this

theorem sortScoredDesc_head (score : String → Nat) (l : List String) :
    (sortScoredDesc (l.map (fun c => (c, score c)))).head? =
      (specPickBest score l).map (fun c => (c, score c)) := by
  unfold sortScoredDesc specPickBest
  rw [head_foldl_insertScoredDesc]
  have := specPickBest_map_pair score l none
  simpa using this

theorem specPickBest_isSome (score : String → Nat) (l : List String) (h : l ≠ []) :
    (specPickBest score l).isSome := by
  have step : ∀ (m : List String) (s : String),
      (m.foldl
        (fun best c =>
          match best with
          | none => some c
          | some bb => if score bb < score c then some c else some bb)
        (some s)).isSome := by
    intro m
    induction m with
    | nil => intro s; simp
    | cons c m ih =>
      intro s
      simp only [List.foldl_cons]
      by_cases hc : score s < score c <;> simp [hc, ih]
  cases l with
  | nil => exact absurd rfl h
  | cons c l => simpa [specPickBest] using step l c

theorem joinSlash_splitSlash (s : String) : joinSlash (splitSlash s) = s := by
  unfold joinSlash splitSlash
  have : (splitOnCh '/' s.data).map (fun l => (⟨l⟩ : String).data) = splitOnCh '/' s.data := by
    simp
  rw [List.map_map]
  show (⟨joinCh '/' ((splitOnCh '/' s.data).map (fun l => (⟨l⟩ : String).data))⟩ : String) = s
  rw [this, joinCh_splitOnCh]

theorem tier3Go_eq_specPickBest (ref : String) (candidates : List String) :
    tier3Go ref candidates =
      (specPickBest (fun abs => longestCommonSuffix (normalizeSlashes abs) ref)
        candidates).getD "" := by
  set score := fun abs => longestCommonSuffix (normalizeSlashes abs) ref with hscore
  cases candidates with
  | nil => simp [tier3Go, specPickBest]
  | cons c0 cs =>
    cases cs with
    | nil => simp [tier3Go, specPickBest, List.headD]
    | cons c1 cs2 =>
      have hlen1 : ¬ (c0 :: c1 :: cs2).length = 1 := by simp
      have hlen2 : 1 < (c0 :: c1 :: cs2).length := by simp
      unfold tier3Go
      rw [if_neg hlen1, if_pos hlen2]
      have hhead := sortScoredDesc_head score (c0 :: c1 :: cs2)
      have hsome := specPickBest_isSome score (c0 :: c1 :: cs2) (by simp)
      cases hpb : specPickBest score (c0 :: c1 :: cs2) with
      | none => rw [hpb] at hsome; simp at hsome
      | some best =>
        rw [hpb] at hhead
        simp only [Option.map] at hhead
        cases hsort : sortScoredDesc ((c0 :: c1 :: cs2).map (fun c => (c, score c))) with
        | nil => rw [hsort] at hhead; simp at hhead
        | cons p ps =>
          rw [hsort] at hhead
          simp only [List.head?_cons, Option.some_inj] at hhead
          simp [List.headD, hhead]

theorem resolveTail_eq_specResolveTail (ref : String) (index : ImageIndex)
    (ht1 : getTruthy index.byRelFromRoot ref = none) :
    resolveTail ref index = specResolveTail ref index := by
  have hkeys : suffixLoopKeys (splitSlash ref) =
      match (splitSlash ref).length - 1 with
      | 0 => []
      | n + 1 => ref :: ((List.range n).map
          (fun i => joinSlash ((splitSlash ref).drop (i + 1)))) := by
    unfold suffixLoopKeys
    cases hn : (splitSlash ref).length - 1 with
    | zero => simp
    | succ n =>
      rw [List.range_succ_eq_map]
      simp only [List.map_cons, List.map_map, List.drop_zero]
      rw [joinSlash_splitSlash]
      rfl
  have hpkeys : properSuffixKeys (splitSlash ref) =
      match (splitSlash ref).length - 1 with
      | 0 => []
      | n + 1 => (List.range n).map (fun i => joinSlash ((splitSlash ref).drop (i + 1))) := by
    unfold properSuffixKeys
    cases hn : (splitSlash ref).length - 1 with
    | zero => simp
    | succ n =>
      rw [List.range_succ_eq_map]
      simp only [List.drop_succ_cons, List.drop_zero, List.map_map]
      rfl
  have htier2 : firstTruthyHit index.byRelFromRoot (suffixLoopKeys (splitSlash ref)) =
      firstTruthyHit index.byRelFromRoot (properSuffixKeys (splitSlash ref)) := by
    rw [hkeys, hpkeys]
    cases (splitSlash ref).length - 1 with
    | zero => rfl
    | succ n => simp [firstTruthyHit, ht1]
  unfold resolveTail specResolveTail
  rw [htier2]
  cases ht2 : firstTruthyHit index.byRelFromRoot (properSuffixKeys (splitSlash ref)) with
  | some v => rfl
  | none =>
    simp only
    exact tier3Go_eq_specPickBest ref (basenameCandidates (splitSlash ref) index)

/-- C7: for every non-empty image reference and every image index, local
resolution follows the three-tier strategy in order: exact match of the
reference with leading slashes stripped against the relative-path table;
then progressively shorter proper path suffixes of the reference against
the same table; then lookup by bare filename with the longest common
character suffix deciding between several candidates, ties broken by input
order; a reference matched by no tier resolves to the empty result.  The
source code additionally retries the full reference as the first element of
its suffix loop, which cannot hit once the exact lookup has failed, so both
descriptions agree. -/
theorem C7_resolve_three_tiers (originalPath : String) (index : ImageIndex)
    (hne : originalPath ≠ "") :
    resolveLocalImageSmart originalPath index = specResolve originalPath index := by
  unfold resolveLocalImageSmart specResolve
  rw [if_neg hne, if_neg hne]
  cases ht1 : getTruthy index.byRelFromRoot
      (stripLeadingSlashes (normalizeSlashes originalPath)) with
  | some v => rfl
  | none =>
    simp only
    exact resolveTail_eq_specResolveTail _ index ht1

/-- Witness for C7 at a concrete index: the reference img/sub/pic.png is
absent from the relative table, its proper suffix sub/pic.png hits, and
both descriptions deliver the same absolute path. -/
theorem C7_resolve_three_tiers_witness :
    ("img/sub/pic.png" : String) ≠ "" ∧
      resolveLocalImageSmart "img/sub/pic.png"
          ⟨[("sub/pic.png", "/root/static/sub/pic.png")], []⟩ =
        specResolve "img/sub/pic.png"
          ⟨[("sub/pic.png", "/root/static/sub/pic.png")], []⟩ :=
  ⟨by decide, C7_resolve_three_tiers "img/sub/pic.png"
    ⟨[("sub/pic.png", "/root/static/sub/pic.png")], []⟩ (by decide)⟩

/-! ## Audit log rows

Source: src/utils/logging.mjs, appendToLog.  A row carries the category,
the document-relative file path, a human-readable message, removed-code
snippets and image paths.  The CSV serialization itself is out of scope;
rows are modelled structurally.
-/

/-- One audit log row, the argument tuple of appendToLog. -/
structure LogRow where
  type : String
  file : String
  errorMsg : String
  removedCode : List String
  missingImages : List String
deriving DecidableEq, Repr

/-! ## C8: move-map placement policy

Source: pipeline.mjs lines 238 to 296 (the first, placeholder-based
pipeline, which the specification designates as the canonical variant).
The mapped directory is looked up by the lowercased output filename; a
duplicate filename is logged and never moved; a mapped destination must
already exist and be a directory, otherwise the failure is logged and the
document falls back to its default location; when the mapping is used the
write step creates no directory at all, and in the fallback case it only
ever creates the parent of the default location.  Path join, basename and
dirname are modelled on slash-separated strings without normalization, and
toLowerCase on ASCII.
-/

/-- Result of fs.stat on a path: the path is missing (stat throws), or it
is a plain file, or a directory. -/
inductive StatResult
  | missing
  | file
  | dir
deriving DecidableEq

/-- ASCII lowercasing of a string (String.prototype.toLowerCase). -/
def toLowerStr (s : String) : String :=
  ⟨s.data.map Char.toLower⟩

/-- Final path component (path.basename on a slash-separated path). -/
def pathBasename (s : String) : String :=
  (splitSlash s).getLastD ""

/-- Everything before the final path component (path.dirname). -/
def pathDirname (s : String) : String :=
  joinSlash (splitSlash s).dropLast

/-- Concatenation of a directory and a filename (path.join, without
normalization). -/
def pathJoin (a b : String) : String :=
  a ++ "/" ++ b

/-- Outcome of the placement decision and the write step for one document:
the absolute path written, the directories the write step creates, and the
audit rows appended. -/
structure MoveOutcome where
  finalAbsolute : String
  createdDirs : List String
  rows : List LogRow
deriving DecidableEq, Repr

/-- The audit row for an ambiguous move-map filename. -/
def moveDuplicateRow (rel outFileName : String) : LogRow :=
  ⟨"MOVE_DUPLICATE", rel, "Multiple destinations for " ++ outFileName ++ "; not moved.", [], []⟩

/-- The audit row for a mapped destination that exists but is a file. -/
def moveNotDirRow (rel mappedDir : String) : LogRow :=
  ⟨"MOVE_DEST_NOT_DIR", rel,
    "Mapped destination exists but is not a directory: " ++ mappedDir, [], []⟩

/-- The audit row for a mapped destination that does not exist. -/
def moveMissingRow (rel mappedDir : String) : LogRow :=
  ⟨"MOVE_DEST_MISSING", rel, "Mapped destination directory not found: " ++ mappedDir, [], []⟩

/-- Embedding of the mapping logic of pipeline.mjs lines 238 to 285,
returning the final absolute path, the used-mapping flag and the appended
rows.  The move map carries Option String values because an empty
destination column is stored as null. -/
def moveMapApply (moveMap : Option (List (String × Option String)))
    (moveDupes : Option (List String)) (stat : String → StatResult)
    (rel defaultDestAbs : String) : String × Bool × List LogRow :=
  let outFileName := pathBasename defaultDestAbs
  let moveKey := toLowerStr outFileName
  match moveMap with
  | none => (defaultDestAbs, false, [])
  | some m =>
    let dup := match moveDupes with
      | none => false
      | some d => d.contains moveKey
    if (List.lookup moveKey m).isSome ∧ dup = false then
      match (List.lookup moveKey m).getD none with
      | none => (defaultDestAbs, false, [])
      | some mappedDir =>
        if jsTrim mappedDir = "" then (defaultDestAbs, false, [])
        else
          match stat mappedDir with
          | StatResult.dir => (pathJoin mappedDir outFileName, true, [])
          | StatResult.file => (defaultDestAbs, false, [moveNotDirRow rel mappedDir])
          | StatResult.missing => (defaultDestAbs, false, [moveMissingRow rel mappedDir])
    else if dup then (defaultDestAbs, false, [moveDuplicateRow rel outFileName])
    else (defaultDestAbs, false, [])

/-- Embedding of the write step of pipeline.mjs lines 288 to 296 composed
with the mapping logic: with a used mapping the file is written without
creating any directory (the existence was just checked); otherwise the
parent of the final default location is created recursively. -/
def moveMapEffects (moveMap : Option (List (String × Option String)))
    (moveDupes : Option (List String)) (stat : String → StatResult)
    (rel defaultDestAbs : String) : MoveOutcome :=
  match moveMapApply moveMap moveDupes stat rel defaultDestAbs with
  | (finalAbsolute, usedMapping, rows) =>
    ⟨finalAbsolute, if usedMapping then [] else [pathDirname finalAbsolute], rows⟩

/-- Placement policy in the wording of the claim: a duplicate-flagged
filename is logged and never moved; a registered, non-blank mapped
destination that is missing or not a directory is logged and the document
is written to its default location with only its default parent created;
a mapped directory that exists is used as the write location with no
directory created at all; every other case is the default location. -/
def specMoveEffects (moveMap : Option (List (String × Option String)))
    (moveDupes : Option (List String)) (stat : String → StatResult)
    (rel defaultDestAbs : String) : MoveOutcome :=
  let outFileName := pathBasename defaultDestAbs
  let moveKey := toLowerStr outFileName
  let defaultOutcome : List LogRow → MoveOutcome :=
    fun rows => ⟨defaultDestAbs, [pathDirname defaultDestAbs], rows⟩
  match moveMap with
  | none => defaultOutcome []
  | some m =>
    if (match moveDupes with
        | none => false
        | some d => d.contains moveKey) then
      defaultOutcome [moveDuplicateRow rel outFileName]
    else
      match (List.lookup moveKey m).getD none with
      | none => defaultOutcome []
      | some mappedDir =>
        if jsTrim mappedDir = "" then defaultOutcome []
        else
          match stat mappedDir with
          | StatResult.dir => ⟨pathJoin mappedDir outFileName, [], []⟩
          | StatResult.file => defaultOutcome [moveNotDirRow rel mappedDir]
          | StatResult.missing => defaultOutcome [moveMissingRow rel mappedDir]

/-- C8: for every document whose output filename matches a move-map entry,
a duplicate-flagged filename is logged and never moved; a mapped
destination directory that does not already exist or is not a directory is
logged and the document is written to its default location; the mapped
directory is never auto-created (the write step creates no directory when
the mapping is used, and only the default parent otherwise); and the
placement decision is a total function, so no mapping-policy failure is
ever fatal to the run.  Stated as the equality of the embedded code with
the claim-shaped policy on every input. -/
theorem C8_move_map_policy (moveMap : Option (List (String × Option String)))
    (moveDupes : Option (List String)) (stat : String → StatResult)
    (rel defaultDestAbs : String) :
    moveMapEffects moveMap moveDupes stat rel defaultDestAbs =
      specMoveEffects moveMap moveDupes stat rel defaultDestAbs := by
  unfold moveMapEffects moveMapApply specMoveEffects
  cases moveMap with
  | none => rfl
  | some m =>
    simp only
    set moveKey := toLowerStr (pathBasename defaultDestAbs) with hkey
    cases moveDupes with
    | none =>
      simp only
      cases hlook : (List.lookup moveKey m) with
      | none => simp [hlook]
      | some v =>
        cases v with
        | none => simp [hlook]
        | some mappedDir =>
          by_cases htrim : jsTrim mappedDir = ""
          · simp [hlook, htrim]
          · cases hstat : stat mappedDir <;> simp [hlook, htrim, hstat]
    | some d =>
      simp only
      by_cases hdup : d.contains moveKey
      · have h2 : ¬ ((List.lookup moveKey m).isSome = true ∧ (d.contains moveKey) = false) := by
          rintro ⟨-, hfalse⟩
          rw [hdup] at hfalse
          exact absurd hfalse (by decide)
        rw [if_neg h2]
        have hmem : moveKey ∈ d := by simpa using hdup
        simp [hmem]
      · have hd : d.contains moveKey = false := by
          simpa using hdup
        have hnmem : moveKey ∉ d := by simpa using hdup
        cases hlook : (List.lookup moveKey m) with
        | none => simp [hlook, hd, hnmem]
        | some v =>
          cases v with
          | none => simp [hlook, hd, hnmem]
          | some mappedDir =>
            by_cases htrim : jsTrim mappedDir = ""
            · simp [hlook, hd, hnmem, htrim]
            · cases hstat : stat mappedDir <;> simp [hlook, hd, hnmem, htrim, hstat]

/-! ## C1: per-document failure isolation in the orchestrator

Source: pipeline.mjs, the per-file loop (first pipeline version, lines 123
to 333; the second version, lines 589 to 796, has the identical catch
discipline).  Every fallible stage of one document (read, pre-pass, parse,
tree rewrite, serialize, tabs, images, write preparation) sits inside one
try block; the catch increments the failure counter, appends exactly one
FAILED row carrying the document-relative path and the error message, and
continues with the next document.  The fallible stages are abstracted as a
step function returning the artifacts of a successful conversion or the
message of the raised error; the loop around it is embedded concretely.
-/

/-- One discovered source document, identified by its path relative to the
source root. -/
structure PipelineDoc where
  rel : String
deriving DecidableEq, Repr

/-- Artifacts of the fallible stages of one successfully converted
document, everything the loop tail reads. -/
structure DocArtifacts where
  markdownBody : String
  readmeYaml : String
  title : String
  importsRemoved : String
  strippedHtmlSnippets : List String
  removedJsSnippets : List String
  removedMdxComponents : List String
  uniqueImages : List String
deriving DecidableEq, Repr

/-- Run-wide configuration of the loop. -/
structure RunConfig where
  destRoot : String
  flatOutput : Bool
  moveMap : Option (List (String × Option String))
  moveDupes : Option (List String)
  stat : String → StatResult

/-- One entry of the run report file list. -/
structure ReportEntry where
  source : String
  output : String
  title : String
  images : List String
deriving DecidableEq, Repr

/-- The accumulating run state: audit log, failure count, written files
with their content, and the report file list. -/
structure RunState where
  log : List LogRow
  failures : Nat
  written : List (String × String)
  reportFiles : List ReportEntry
deriving DecidableEq, Repr

/-- Extension normalization of the output name, the replace of a
case-insensitive .md or .mdx suffix by .md. -/
def mdOutputRel (rel : String) : String :=
  if (toLowerStr rel).endsWith ".mdx" then rel.dropRight 4 ++ ".md"
  else if (toLowerStr rel).endsWith ".md" then rel.dropRight 3 ++ ".md"
  else rel

/-- The audit rows appended for one successfully converted document, in the
order of pipeline.mjs lines 201 to 296: removed imports, stripped html,
removed scripts, removed components, found images, then the move-map rows. -/
def successRows (rel : String) (a : DocArtifacts) (moveRows : List LogRow) : List LogRow :=
  (if a.importsRemoved ≠ "" then
    [⟨"REMOVED_IMPORTS", rel, "", [a.importsRemoved], []⟩] else []) ++
  (if a.strippedHtmlSnippets ≠ [] then
    [⟨"STRIPPED_HTML", rel, String.intercalate "\n---\n" a.strippedHtmlSnippets, [], []⟩] else []) ++
  (if a.removedJsSnippets ≠ [] then
    [⟨"REMOVED_JS", rel, "", a.removedJsSnippets, []⟩] else []) ++
  (if a.removedMdxComponents ≠ [] then
    [⟨"REMOVED_MDX", rel, "", a.removedMdxComponents, []⟩] else []) ++
  (if a.uniqueImages ≠ [] then
    [⟨"IMAGES", rel, "", [], a.uniqueImages⟩] else []) ++
  moveRows

/-- The FAILED row appended by the catch block. -/
def failedRow (rel e : String) : LogRow :=
  ⟨"FAILED", rel, e, [], []⟩

/-- The loop body for one document: on success the audit rows, the final
write and the report entry are appended; on any raised error the failure
counter is incremented and exactly one FAILED row is appended, after which
the loop continues. -/
def processOne (cfg : RunConfig) (step : PipelineDoc → Except String DocArtifacts)
    (st : RunState) (d : PipelineDoc) : RunState :=
  match step d with
  | Except.error e =>
    ⟨st.log ++ [failedRow d.rel e], st.failures + 1, st.written, st.reportFiles⟩
  | Except.ok a =>
    let defaultDestAbs := pathJoin cfg.destRoot
      (mdOutputRel (if cfg.flatOutput then pathBasename d.rel else d.rel))
    let moved := moveMapApply cfg.moveMap cfg.moveDupes cfg.stat d.rel defaultDestAbs
    ⟨st.log ++ successRows d.rel a moved.2.2,
     st.failures,
     st.written ++ [(moved.1, assembleFinalDoc a.readmeYaml a.markdownBody)],
     st.reportFiles ++ [⟨d.rel, moved.1, a.title, a.uniqueImages⟩]⟩

/-- The initial run state. -/
def initState : RunState := ⟨[], 0, [], []⟩

/-- The per-file loop of runPipeline: a left fold of the loop body over the
discovered documents. -/
def runPipeline (cfg : RunConfig) (step : PipelineDoc → Except String DocArtifacts)
    (docs : List PipelineDoc) : RunState :=
  docs.foldl (processOne cfg step) initState

theorem processOne_shift (cfg : RunConfig) (step : PipelineDoc → Except String DocArtifacts)
    (st : RunState) (d : PipelineDoc) :
    processOne cfg step st d =
      ⟨st.log ++ (processOne cfg step initState d).log,
       st.failures + (processOne cfg step initState d).failures,
       st.written ++ (processOne cfg step initState d).written,
       st.reportFiles ++ (processOne cfg step initState d).reportFiles⟩ := by
  cases hstep : step d <;> simp [processOne, hstep, initState]

theorem foldl_processOne_shift (cfg : RunConfig)
    (step : PipelineDoc → Except String DocArtifacts) (docs : List PipelineDoc) :
    ∀ st : RunState,
      docs.foldl (processOne cfg step) st =
        ⟨st.log ++ (runPipeline cfg step docs).log,
         st.failures + (runPipeline cfg step docs).failures,
         st.written ++ (runPipeline cfg step docs).written,
         st.reportFiles ++ (runPipeline cfg step docs).reportFiles⟩ := by
  induction docs with
  | nil =>
    intro st
    cases st
    simp [runPipeline, initState]
  | cons d docs ih =>
    intro st
    have hrun : runPipeline cfg step (d :: docs) =
        docs.foldl (processOne cfg step) (processOne cfg step initState d) := rfl
    rw [hrun, List.foldl_cons, ih (processOne cfg step st d),
      ih (processOne cfg step initState d), processOne_shift cfg step st d]
    simp [List.append_assoc, Nat.add_assoc]

theorem runPipeline_append (cfg : RunConfig)
    (step : PipelineDoc → Except String DocArtifacts) (xs ys : List PipelineDoc) :
    runPipeline cfg step (xs ++ ys) =
      ⟨(runPipeline cfg step xs).log ++ (runPipeline cfg step ys).log,
       (runPipeline cfg step xs).failures + (runPipeline cfg step ys).failures,
       (runPipeline cfg step xs).written ++ (runPipeline cfg step ys).written,
       (runPipeline cfg step xs).reportFiles ++ (runPipeline cfg step ys).reportFiles⟩ := by
  unfold runPipeline
  rw [List.foldl_append]
  exact foldl_processOne_shift cfg step ys (xs.foldl (processOne cfg step) initState)

theorem moveMapApply_rows_file (mm : Option (List (String × Option String)))
    (dupes : Option (List String)) (stat : String → StatResult) (rel dflt : String) :
    ∀ r ∈ (moveMapApply mm dupes stat rel dflt).2.2, r.file = rel := by
  intro r hr
  unfold moveMapApply at hr
  rcases mm with _ | m
  · simp at hr
  · simp only at hr
    split at hr
    · split at hr
      · simp at hr
      · split at hr
        · simp at hr
        · split at hr <;>
            simp_all [moveNotDirRow, moveMissingRow]
    · split at hr <;> simp_all [moveDuplicateRow]

theorem moveMapApply_rows_not_failed (mm : Option (List (String × Option String)))
    (dupes : Option (List String)) (stat : String → StatResult) (rel dflt : String) :
    ∀ r ∈ (moveMapApply mm dupes stat rel dflt).2.2, r.type ≠ "FAILED" := by
  intro r hr
  unfold moveMapApply at hr
  rcases mm with _ | m
  · simp at hr
  · simp only at hr
    split at hr
    · split at hr
      · simp at hr
      · split at hr
        · simp at hr
        · split at hr <;>
            simp_all [moveNotDirRow, moveMissingRow]
    · split at hr <;> simp_all [moveDuplicateRow]

theorem successRows_file (rel : String) (a : DocArtifacts) (moveRows : List LogRow)
    (hmv : ∀ r ∈ moveRows, r.file = rel) :
    ∀ r ∈ successRows rel a moveRows, r.file = rel := by
  intro r hr
  unfold successRows at hr
  simp only [List.mem_append] at hr
  rcases hr with ((((h | h) | h) | h) | h) | h <;>
    first
      | (split at h <;> simp_all)
      | exact hmv r h

theorem successRows_not_failed (rel : String) (a : DocArtifacts) (moveRows : List LogRow)
    (hmv : ∀ r ∈ moveRows, r.type ≠ "FAILED") :
    ∀ r ∈ successRows rel a moveRows, r.type ≠ "FAILED" := by
  intro r hr
  unfold successRows at hr
  simp only [List.mem_append] at hr
  rcases hr with ((((h | h) | h) | h) | h) | h <;>
    first
      | (split at h <;> simp_all)
      | exact hmv r h

/-- Count of audit rows of a given category for a given file. -/
def countRows (l : List LogRow) (ty file : String) : Nat :=
  l.countP (fun r => r.type == ty && r.file == file)

theorem countRows_append (l1 l2 : List LogRow) (ty file : String) :
    countRows (l1 ++ l2) ty file = countRows l1 ty file + countRows l2 ty file := by
  simp [countRows, List.countP_append]

theorem countRows_eq_zero_of_file_ne (l : List LogRow) (ty file : String)
    (h : ∀ r ∈ l, r.file ≠ file) : countRows l ty file = 0 := by
  unfold countRows
  rw [List.countP_eq_zero]
  intro r hr
  have := h r hr
  simp [this]

theorem processOne_log_file (cfg : RunConfig)
    (step : PipelineDoc → Except String DocArtifacts) (d : PipelineDoc) :
    ∀ r ∈ (processOne cfg step initState d).log, r.file = d.rel := by
  intro r hr
  cases hstep : step d with
  | error e =>
    simp only [processOne, hstep, initState] at hr
    simp at hr
    simp [hr, failedRow]
  | ok a =>
    simp only [processOne, hstep, initState] at hr
    simp only [List.nil_append] at hr
    exact successRows_file d.rel a _ (moveMapApply_rows_file _ _ _ _ _) r hr

theorem runPipeline_log_file (cfg : RunConfig)
    (step : PipelineDoc → Except String DocArtifacts) (docs : List PipelineDoc) :
    ∀ r ∈ (runPipeline cfg step docs).log, r.file ∈ docs.map PipelineDoc.rel := by
  induction docs with
  | nil => intro r hr; simp [runPipeline, initState] at hr
  | cons d docs ih =>
    intro r hr
    have hsplit : runPipeline cfg step (d :: docs) = runPipeline cfg step ([d] ++ docs) := rfl
    rw [hsplit, runPipeline_append] at hr
    simp only [List.mem_append] at hr
    rcases hr with hr | hr
    · have h1 : (runPipeline cfg step [d]).log = (processOne cfg step initState d).log := rfl
      rw [h1] at hr
      have := processOne_log_file cfg step d r hr
      simp [this]
    · have := ih r hr
      simp [List.mem_cons]
      right
      simpa using this

/-- C1: in a run over documents pre, then d, then post, if the fallible
stages of d raise an error e, then the audit log of the whole run contains
exactly one FAILED row for the relative path of d, the failure count of the
run exceeds by exactly one the failure count of the same run without d, and
the files written are exactly the files written by the same run without d:
every other document, in particular every subsequent one, is still
processed and written, so one failing document never halts the batch. -/
theorem C1_failure_isolation (cfg : RunConfig)
    (step : PipelineDoc → Except String DocArtifacts)
    (pre post : List PipelineDoc) (d : PipelineDoc) (e : String)
    (hfail : step d = Except.error e)
    (hnodup : ((pre ++ d :: post).map PipelineDoc.rel).Nodup) :
    countRows (runPipeline cfg step (pre ++ d :: post)).log "FAILED" d.rel = 1 ∧
    (runPipeline cfg step (pre ++ d :: post)).failures =
      (runPipeline cfg step (pre ++ post)).failures + 1 ∧
    (runPipeline cfg step (pre ++ d :: post)).written =
      (runPipeline cfg step (pre ++ post)).written := by
  have hcons : pre ++ d :: post = pre ++ ([d] ++ post) := by simp
  have hsingle : runPipeline cfg step [d] =
      ⟨[failedRow d.rel e], 1, [], []⟩ := by
    simp [runPipeline, processOne, hfail, initState]
  have hnotpre : d.rel ∉ pre.map PipelineDoc.rel := by
    rw [List.map_append] at hnodup
    have h2 := (List.nodup_append.mp hnodup).2.2
    intro hmem
    exact h2 hmem (by simp)
  have hnotpost : d.rel ∉ post.map PipelineDoc.rel := by
    rw [List.map_append] at hnodup
    have h2 := (List.nodup_append.mp hnodup).1
    have h3 := ((List.nodup_cons.mp ((List.nodup_append.mp hnodup).2.1))).1
    simpa using h3
  refine ⟨?_, ?_, ?_⟩
  · rw [hcons, runPipeline_append, runPipeline_append]
    simp only
    rw [countRows_append, countRows_append, hsingle]
    have hzpre : countRows (runPipeline cfg step pre).log "FAILED" d.rel = 0 := by
      apply countRows_eq_zero_of_file_ne
      intro r hr
      have := runPipeline_log_file cfg step pre r hr
      intro hcontra
      rw [hcontra] at this
      exact hnotpre this
    have hzpost : countRows (runPipeline cfg step post).log "FAILED" d.rel = 0 := by
      apply countRows_eq_zero_of_file_ne
      intro r hr
      have := runPipeline_log_file cfg step post r hr
      intro hcontra
      rw [hcontra] at this
      exact hnotpost this
    rw [hzpre, hzpost]
    simp [countRows, failedRow]
  · rw [hcons, runPipeline_append, runPipeline_append, runPipeline_append, hsingle]
    simp only
    omega
  · rw [hcons, runPipeline_append, runPipeline_append, runPipeline_append, hsingle]
    simp

/-- Concrete configuration for the C1 witness. -/
def cfgW : RunConfig := ⟨"/out", false, none, none, fun _ => StatResult.missing⟩

/-- Concrete step function for the C1 witness: the middle document raises,
the others convert. -/
def stepW (d : PipelineDoc) : Except String DocArtifacts :=
  if d.rel = "b.md" then Except.error "boom"
  else Except.ok ⟨"Hello.", "title: T\n", "T", "", [], [], [], []⟩

/-- Witness for C1 on a concrete three-document run whose middle document
fails. -/
theorem C1_failure_isolation_witness :
    stepW ⟨"b.md"⟩ = Except.error "boom" ∧
    (([(⟨"a.md"⟩ : PipelineDoc)] ++ (⟨"b.md"⟩ : PipelineDoc) ::
        [(⟨"c.md"⟩ : PipelineDoc)]).map PipelineDoc.rel).Nodup ∧
    (countRows (runPipeline cfgW stepW
        ([⟨"a.md"⟩] ++ ⟨"b.md"⟩ :: [⟨"c.md"⟩])).log "FAILED" "b.md" = 1 ∧
      (runPipeline cfgW stepW ([⟨"a.md"⟩] ++ ⟨"b.md"⟩ :: [⟨"c.md"⟩])).failures =
        (runPipeline cfgW stepW ([⟨"a.md"⟩] ++ [⟨"c.md"⟩])).failures + 1 ∧
      (runPipeline cfgW stepW ([⟨"a.md"⟩] ++ ⟨"b.md"⟩ :: [⟨"c.md"⟩])).written =
        (runPipeline cfgW stepW ([⟨"a.md"⟩] ++ [⟨"c.md"⟩])).written) :=
  ⟨rfl, by decide,
    C1_failure_isolation cfgW stepW [⟨"a.md"⟩] [⟨"c.md"⟩] ⟨"b.md"⟩ "boom" rfl (by decide)⟩

/-! ## Scanners shared by the regex-based text transforms

The tabs post-pass and the script stripping work with a handful of simple
regex shapes.  Each shape is modelled by an explicit scanner on character
lists; where the JavaScript engine would backtrack, the scanner mirrors the
deterministic outcome of that backtracking (greedy runs followed by a
mandatory literal can only succeed at the end of the run, lazy runs stop at
the first occurrence of the closing literal).  Recursions that consume an
unpredictable amount of input use an explicit fuel argument set to more
than the input length by their wrappers.
-/

/-- Word characters of the regex class used by the boundary assertion. -/
def wordChar (c : Char) : Bool :=
  ('A' ≤ c && c ≤ 'Z') || ('a' ≤ c && c ≤ 'z') || ('0' ≤ c && c ≤ '9') || c = '_'

/-- The double quote character. -/
def dq : Char := Char.ofNat 34

/-- The single quote character. -/
def sq : Char := Char.ofNat 39

/-- Split a haystack at the first occurrence of a needle, returning the
part before it and the part after it; none when the needle never occurs. -/
def splitAtSub (needle : List Char) : List Char → Option (List Char × List Char)
  | [] => if needle = [] then some ([], []) else none
  | c :: cs =>
    if needle.isPrefixOf (c :: cs) then some ([], (c :: cs).drop needle.length)
    else
      match splitAtSub needle cs with
      | some (pre, post) => some (c :: pre, post)
      | none => none

/-- Index of the first occurrence of a needle, JavaScript indexOf. -/
def idxOfSub (needle hay : List Char) : Option Nat :=
  match splitAtSub needle hay with
  | some (pre, _) => some pre.length
  | none => none

/-- Index of the first occurrence of a needle at or after a start
position, JavaScript indexOf with a fromIndex argument. -/
def idxOfSubFrom (needle hay : List Char) (start : Nat) : Option Nat :=
  match idxOfSub needle (hay.drop start) with
  | some p => some (start + p)
  | none => none

/-- Index of the last occurrence of a needle, JavaScript lastIndexOf,
implemented with fuel. -/
def lastIdxOfSubAux (fuel : Nat) (needle hay : List Char) (base : Nat) : Option Nat :=
  match fuel with
  | 0 => none
  | fuel + 1 =>
    match splitAtSub needle hay with
    | none => none
    | some (pre, _) =>
      match lastIdxOfSubAux fuel needle (hay.drop (pre.length + 1)) (base + pre.length + 1) with
      | some q => some q
      | none => some (base + pre.length)

/-- Index of the last occurrence of a needle in a haystack. -/
def lastIdxOfSub (needle hay : List Char) : Option Nat :=
  lastIdxOfSubAux (hay.length + 1) needle hay 0

/-- Try a matcher at every suffix of the input, leftmost first, modelling
the position scan of a regex search. -/
def scanFirst {α : Type} (tryAt : List Char → Option α) : List Char → Option α
  | [] => tryAt []
  | c :: cs =>
    match tryAt (c :: cs) with
    | some v => some v
    | none => scanFirst tryAt cs

/-- Embedding of the stripping regex replace of every complete tag span,
the global replace of open angle bracket, one or more characters other
than the closing bracket, closing bracket, by the empty string (used by
sanitizeLabel and by the selective lowering).  An opener without a
matching closer, or an immediately closed empty pair, is kept. -/
def stripTags (fuel : Nat) (cs : List Char) : List Char :=
  match fuel, cs with
  | 0, cs => cs
  | _ + 1, [] => []
  | fuel + 1, c :: cs =>
    if c = '<' then
      match splitAtSub ['>'] cs with
      | some (inner, rest) =>
        if inner ≠ [] then stripTags fuel rest
        else c :: stripTags fuel cs
      | none => c :: stripTags fuel cs
    else c :: stripTags fuel cs

/-- String-level tag stripping with ample fuel. -/
def stripTagsStr (s : String) : String :=
  ⟨stripTags (s.data.length + 1) s.data⟩

/-- Global single-character replace, JavaScript replace of one character by
a fixed string with the global flag. -/
def replaceAllCh (c : Char) (repl : List Char) (cs : List Char) : List Char :=
  cs.flatMap (fun a => if a = c then repl else [a])

/-! ## C4 and C5: the tabs post-pass

Source: src/transform/tabs.mjs.  A tabbed block spans from an opening Tabs
tag with a word boundary to the first closing Tabs tag.  The opening tag
may carry a values attribute whose array literal is extracted by explicit
brace balancing; each top-level object of that array yields a value-label
pair; each child TabItem element is re-emitted as a Tab element with an
HTML-entity-escaped title attribute; a block without recognized child
items is returned unchanged.
-/

/-- The brace balancing loop of extractValuesArrayFromOpeningTag lines 67
to 76: walk from the opening brace counting depth, and report the index of
the brace that returns the depth to zero, or the input length when the
braces never balance. -/
def braceScanAux : List Char → Int → Nat → Nat
  | [], _, i => i
  | c :: cs, depth, i =>
    if c = '{' then braceScanAux cs (depth + 1) (i + 1)
    else if c = '}' then
      if depth - 1 = 0 then i else braceScanAux cs (depth - 1) (i + 1)
    else braceScanAux cs depth (i + 1)

/-- JavaScript slice with start and end indices on a character list. -/
def sliceList (cs : List Char) (a b : Nat) : List Char :=
  (cs.drop a).take (b - a)

/-- Embedding of extractValuesArrayFromOpeningTag: the values array source
between the brackets inside the balanced brace span of the values
attribute, and the index of the first closing angle bracket after that
span (none standing for the JavaScript minus one). -/
def extractValuesArrayFromOpeningTag (tabsBlock : List Char) :
    List Char × Option Nat :=
  match idxOfSub "<Tabs".data tabsBlock with
  | none => ([], idxOfSub ['>'] tabsBlock)
  | some openingStart =>
    match idxOfSubFrom "values".data tabsBlock openingStart with
    | none => ([], idxOfSub ['>'] tabsBlock)
    | some valuesIndex =>
      match idxOfSubFrom ['{'] tabsBlock valuesIndex with
      | none => ([], idxOfSub ['>'] tabsBlock)
      | some braceStartIndex =>
        let braceEndIndex := braceScanAux (tabsBlock.drop braceStartIndex) 0 braceStartIndex
        let openingTagEndIndex := idxOfSubFrom ['>'] tabsBlock braceEndIndex
        let insideBraces := sliceList tabsBlock (braceStartIndex + 1) braceEndIndex
        let valuesArraySource :=
          match idxOfSub ['['] insideBraces, lastIdxOfSub [']'] insideBraces with
          | some leftBracket, some rightBracket =>
            if leftBracket < rightBracket then
              sliceList insideBraces (leftBracket + 1) rightBracket
            else insideBraces
          | _, _ => insideBraces
        (valuesArraySource, openingTagEndIndex)

/-- The top-level object collector of extractTopLevelObjects lines 124 to
141: depth-counted scan emitting every top-level brace span. -/
def extractTopAux : List Char → Int → Option (List Char) → List (List Char)
  | [], _, _ => []
  | c :: cs, depth, acc =>
    if c = '{' then
      if depth = 0 then extractTopAux cs 1 (some [c])
      else extractTopAux cs (depth + 1) (acc.map (fun a => a ++ [c]))
    else if c = '}' then
      if depth - 1 = 0 then
        match acc with
        | some a => (a ++ [c]) :: extractTopAux cs 0 none
        | none => extractTopAux cs 0 none
      else extractTopAux cs (depth - 1) (acc.map (fun a => a ++ [c]))
    else extractTopAux cs depth (acc.map (fun a => a ++ [c]))

/-- The lax fallback of extractTopLevelObjects lines 143 to 147: the global
matches of an opening brace lazily up to the next closing brace. -/
def laxObjectsAux (fuel : Nat) (cs : List Char) : List (List Char) :=
  match fuel with
  | 0 => []
  | fuel + 1 =>
    match splitAtSub ['{'] cs with
    | none => []
    | some (_, afterBrace) =>
      match splitAtSub ['}'] afterBrace with
      | none => []
      | some (inner, rest) => ('{' :: inner ++ ['}']) :: laxObjectsAux fuel rest

/-- Embedding of extractTopLevelObjects: depth counting first, the lax
regex fallback only when depth counting finds nothing. -/
def extractTopLevelObjects (source : List Char) : List (List Char) :=
  match extractTopAux source 0 none with
  | [] => laxObjectsAux (source.length + 1) source
  | results => results

/-- Matcher for the quoted field form: a whitespace, comma or open-brace
class character, the key, optional whitespace, a colon, optional
whitespace, either quote kind, then the lazily captured span up to the
next quote of the same kind (the backreference of the source regex). -/
def matchKeyQuotedAt (key : List Char) (cs : List Char) : Option (List Char) :=
  match cs with
  | [] => none
  | c :: rest =>
    if isJsWs c || c = ',' || c = '{' then
      if key.isPrefixOf rest then
        match (rest.drop key.length).dropWhile isJsWs with
        | ':' :: r2 =>
          match r2.dropWhile isJsWs with
          | q2 :: r4 =>
            if q2 = dq || q2 = sq then
              match splitAtSub [q2] r4 with
              | some (inner, _) => some inner
              | none => none
            else none
          | [] => none
        | _ => none
      else none
    else none

/-- Matcher for the brace-wrapped field form: as above with an open brace
and the lazily captured span up to the next closing brace. -/
def matchKeyBracedAt (key : List Char) (cs : List Char) : Option (List Char) :=
  match cs with
  | [] => none
  | c :: rest =>
    if isJsWs c || c = ',' || c = '{' then
      if key.isPrefixOf rest then
        match (rest.drop key.length).dropWhile isJsWs with
        | ':' :: r2 =>
          match r2.dropWhile isJsWs with
          | '{' :: r4 =>
            match splitAtSub ['}'] r4 with
            | some (inner, _) => some inner
            | none => none
          | _ => none
        | _ => none
      else none
    else none

/-- Matcher for the bare value form: one or more characters that are not
whitespace, comma or closing brace. -/
def matchValueBareAt (key : List Char) (cs : List Char) : Option (List Char) :=
  match cs with
  | [] => none
  | c :: rest =>
    if isJsWs c || c = ',' || c = '{' then
      if key.isPrefixOf rest then
        match (rest.drop key.length).dropWhile isJsWs with
        | ':' :: r2 =>
          match (r2.dropWhile isJsWs).takeWhile
              (fun a => !(isJsWs a || a = ',' || a = '}')) with
          | [] => none
          | run => some run
        | _ => none
      else none
    else none

/-- Matcher for the lazy label form: anything up to the first comma or
closing brace, which must exist. -/
def matchLabelLazyAt (key : List Char) (cs : List Char) : Option (List Char) :=
  match cs with
  | [] => none
  | c :: rest =>
    if isJsWs c || c = ',' || c = '{' then
      if key.isPrefixOf rest then
        match (rest.drop key.length).dropWhile isJsWs with
        | ':' :: r2 =>
          let r3 := r2.dropWhile isJsWs
          let grp := r3.takeWhile (fun a => !(a = ',' || a = '}'))
          if r3.drop grp.length = [] then none else some grp
        | _ => none
      else none
    else none

/-- JavaScript falsy chain on extraction results: a failed match and an
empty captured group both fall through. -/
def jsOrChars (a : Option (List Char)) (b : List Char) : List Char :=
  match a with
  | some l => if l = [] then b else l
  | none => b

/-- The value field of one object source, the three-regex chain of
buildLabelMap lines 102 to 106. -/
def extractValueField (os : List Char) : List Char :=
  jsOrChars (scanFirst (matchKeyQuotedAt "value".data) os)
    (jsOrChars (scanFirst (matchKeyBracedAt "value".data) os)
      (jsOrChars (scanFirst (matchValueBareAt "value".data) os) []))

/-- The label field of one object source, the three-regex chain of
buildLabelMap lines 110 to 114. -/
def extractLabelField (os : List Char) : List Char :=
  jsOrChars (scanFirst (matchKeyQuotedAt "label".data) os)
    (jsOrChars (scanFirst (matchKeyBracedAt "label".data) os)
      (jsOrChars (scanFirst (matchLabelLazyAt "label".data) os) []))

/-- Embedding of stripWrappingDelimiters: trim, unwrap one brace layer,
then unwrap one layer of matching quotes, trimming after each unwrap. -/
def stripWrappingDelimiters (text : List Char) : List Char :=
  let s := trimList text
  let s2 :=
    if s.head? = some '{' && s.getLast? = some '}' then trimList (s.drop 1).dropLast else s
  if (s2.head? = some sq && s2.getLast? = some sq) ||
      (s2.head? = some dq && s2.getLast? = some dq) then
    trimList (s2.drop 1).dropLast
  else s2

/-- Embedding of sanitizeLabel: strip tags, trim, and fall back when the
result is empty. -/
def sanitizeLabel (raw : List Char) (fallback : String) : String :=
  match trimList (stripTags (raw.length + 1) raw) with
  | [] => fallback
  | cleaned => ⟨cleaned⟩

/-- JavaScript Map.set on an association list: replace the value of an
existing key in place, append a new key. -/
def mapSet (m : List (String × String)) (k v : String) : List (String × String) :=
  match m with
  | [] => [(k, v)]
  | (k2, v2) :: rest => if k2 = k then (k, v) :: rest else (k2, v2) :: mapSet rest k v

/-- Embedding of buildLabelMap: for each top-level object with a non-empty
value field, store the sanitized label under the value, falling back to
the value itself. -/
def buildLabelMap (valuesArraySource : List Char) : List (String × String) :=
  (extractTopLevelObjects valuesArraySource).foldl
    (fun m os =>
      match extractValueField os with
      | [] => m
      | value =>
        mapSet m ⟨value⟩
          (sanitizeLabel (stripWrappingDelimiters (extractLabelField os)) ⟨value⟩))
    []

/-- Matcher for one attribute regex form at one position: the attribute
name, optional whitespace, an equals sign, optional whitespace, the given
opening delimiter, then the lazily captured span up to the given closing
delimiter. -/
def matchAttrAt (name : List Char) (openDelim closeDelim : Char)
    (cs : List Char) : Option (List Char) :=
  if name.isPrefixOf cs then
    match (cs.drop name.length).dropWhile isJsWs with
    | '=' :: r1 =>
      match r1.dropWhile isJsWs with
      | d :: r2 =>
        if d = openDelim then
          match splitAtSub [closeDelim] r2 with
          | some (inner, _) => some inner
          | none => none
        else none
      | [] => none
    | _ => none
  else none

/-- Embedding of getAttr from tabs.mjs lines 151 to 160: the double-quoted
form, then the single-quoted form, then the brace-wrapped form, each tried
over the whole attribute string, the captured group trimmed. -/
def getAttr (attributeString : List Char) (name : List Char) : String :=
  match scanFirst (matchAttrAt name dq dq) attributeString with
  | some v => ⟨trimList v⟩
  | none =>
    match scanFirst (matchAttrAt name sq sq) attributeString with
    | some v => ⟨trimList v⟩
    | none =>
      match scanFirst (matchAttrAt name '{' '}') attributeString with
      | some v => ⟨trimList v⟩
      | none => ""

/-- Embedding of escapeHtmlAttribute: the four sequential global character
replaces, ampersand first. -/
def escapeHtmlAttribute (cs : List Char) : List Char :=
  replaceAllCh '>' "&gt;".data
    (replaceAllCh '<' "&lt;".data
      (replaceAllCh dq "&quot;".data
        (replaceAllCh '&' "&amp;".data cs)))

/-- Drop one trailing carriage return of a line piece, the effect of
splitting on the optional-carriage-return newline regex. -/
def dropTrailingCR (l : List Char) : List Char :=
  if l.getLast? = some '\r' then l.dropLast else l

/-- Embedding of indentBlock from callouts.mjs lines 39 to 44: split into
lines, pad every non-empty line, join back with newlines. -/
def indentBlockLines (pad : List Char) (lines : List (List Char)) : List (List Char) :=
  (lines.map dropTrailingCR).map (fun l => if l = [] then [] else pad ++ l)

/-- String-level indentBlock. -/
def indentBlock (s : String) (pad : String) : String :=
  ⟨joinCh '\n' (indentBlockLines pad.data (splitOnCh '\n' s.data))⟩

/-- Matcher for one TabItem element at one position: the TabItem opener
with a word boundary, the attribute span up to the first closing angle
bracket, then the lazily captured body up to the first TabItem closer.
Returns the attributes, the body and the rest of the input after the
closer. -/
def matchTabItemAt (cs : List Char) : Option (List Char × List Char × List Char) :=
  if "<TabItem".data.isPrefixOf cs then
    match cs.drop 8 with
    | [] => none
    | c :: _ =>
      if wordChar c then none
      else
        let r0 := cs.drop 8
        let attrs := r0.takeWhile (fun a => a ≠ '>')
        match r0.drop attrs.length with
        | '>' :: r2 =>
          match splitAtSub "</TabItem>".data r2 with
          | some (body, rest) => some (attrs, body, rest)
          | none => none
        | _ => none
  else none

/-- All TabItem matches of the inner content, in order, the global regex
scan of tabs.mjs lines 24 to 42. -/
def tabItemsAux (fuel : Nat) (cs : List Char) : List (List Char × List Char) :=
  match fuel, cs with
  | 0, _ => []
  | _ + 1, [] => []
  | fuel + 1, c :: rest =>
    match matchTabItemAt (c :: rest) with
    | some (attrs, body, after) => (attrs, body) :: tabItemsAux fuel after
    | none => tabItemsAux fuel rest

/-- TabItem matches with ample fuel. -/
def tabItems (cs : List Char) : List (List Char × List Char) :=
  tabItemsAux (cs.length + 1) cs

/-- The preferred title source of tabs.mjs line 29: the label attribute
when truthy, else the label-map lookup by the value attribute when that
attribute is truthy, else empty. -/
def tabPreferredSource (labelByValue : List (String × String)) (attrs : List Char) : String :=
  if getAttr attrs "label".data ≠ "" then getAttr attrs "label".data
  else if getAttr attrs "value".data ≠ "" then
    (List.lookup (getAttr attrs "value".data) labelByValue).getD ""
  else ""

/-- The emitted title of tabs.mjs line 30: the sanitized preferred source
with the value attribute, or the literal Tab, as fallback. -/
def tabTitle (labelByValue : List (String × String)) (attrs : List Char) : String :=
  sanitizeLabel (tabPreferredSource labelByValue attrs).data
    (if getAttr attrs "value".data ≠ "" then getAttr attrs "value".data else "Tab")

/-- Embedding of the re-emission of one child item, tabs.mjs lines 33 to
39: a Tab opener carrying the escaped title, the trimmed body re-indented
by three spaces, and the Tab closer, joined by newlines. -/
def renderTab (labelByValue : List (String × String))
    (item : List Char × List Char) : List Char :=
  "  <Tab title=\"".data ++ escapeHtmlAttribute (tabTitle labelByValue item.1).data ++
    "\">".data ++ '\n' :: (indentBlock ⟨trimList item.2⟩ "   ").data ++
    '\n' :: "  </Tab>".data

/-- The inner content of a tabbed block, tabs.mjs lines 15 to 21: from one
past the true opening tag end (or one past the first closing angle
bracket when no end was found, or position zero when there is none) to the
last Tabs closer, when that lies strictly beyond the start. -/
def tabsInnerContent (block : List Char) : List Char :=
  match (match (extractValuesArrayFromOpeningTag block).2 with
    | some i => i + 1
    | none =>
      match idxOfSub ['>'] block with
      | some j => j + 1
      | none => 0) with
  | innerStartIndex =>
    match lastIdxOfSub "</Tabs>".data block with
    | some e => if innerStartIndex < e then sliceList block innerStartIndex e else []
    | none => []

/-- Embedding of the per-block replacer callback of
transformDocusaurusTabsToTarget, tabs.mjs lines 9 to 46: when no child
item is recognized the original block is returned unchanged, otherwise a
fresh Tabs element wrapping the re-emitted children separated by blank
lines. -/
def processTabsBlock (block : List Char) : List Char :=
  if (tabItems (tabsInnerContent block)).map
      (renderTab (buildLabelMap (extractValuesArrayFromOpeningTag block).1)) = [] then
    block
  else
    "<Tabs>\n".data ++
      List.intercalate "\n\n".data
        ((tabItems (tabsInnerContent block)).map
          (renderTab (buildLabelMap (extractValuesArrayFromOpeningTag block).1))) ++
      "\n</Tabs>".data

/-- Matcher for a whole tabbed block at one position: the Tabs opener with
a word boundary, then lazily up to the first Tabs closer.  Returns the
block and the rest of the input. -/
def matchTabsBlockAt (cs : List Char) : Option (List Char × List Char) :=
  if "<Tabs".data.isPrefixOf cs then
    if (match cs.drop 5 with
        | [] => true
        | c :: _ => !wordChar c) then
      match splitAtSub "</Tabs>".data (cs.drop 5) with
      | some (inner, after) => some ("<Tabs".data ++ inner ++ "</Tabs>".data, after)
      | none => none
    else none
  else none

/-- The global replace of every tabbed block. -/
def replaceTabsBlocksAux (fuel : Nat) (cs : List Char) : List Char :=
  match fuel, cs with
  | 0, cs => cs
  | _ + 1, [] => []
  | fuel + 1, c :: rest =>
    match matchTabsBlockAt (c :: rest) with
    | some (block, after) => processTabsBlock block ++ replaceTabsBlocksAux fuel after
    | none => c :: replaceTabsBlocksAux fuel rest

/-- Embedding of transformDocusaurusTabsToTarget, tabs.mjs line 8. -/
def transformDocusaurusTabsToTarget (markdownText : String) : String :=
  ⟨replaceTabsBlocksAux (markdownText.data.length + 1) markdownText.data⟩

/-- C4: for every tabbed-content block in which no child tab-item element
is recognized, the tabs post-pass returns that block byte for byte
identical to its input. -/
theorem C4_tabs_block_without_items_unchanged (block : List Char)
    (h : tabItems (tabsInnerContent block) = []) :
    processTabsBlock block = block := by
  unfold processTabsBlock
  rw [h]
  simp

/-- Witness for C4: a concrete tabbed block holding only plain text has no
recognized child item and passes through unchanged. -/
theorem C4_tabs_block_without_items_unchanged_witness :
    tabItems (tabsInnerContent "<Tabs>\nplain text\n</Tabs>".data) = [] ∧
    processTabsBlock "<Tabs>\nplain text\n</Tabs>".data = "<Tabs>\nplain text\n</Tabs>".data :=
  ⟨by decide, C4_tabs_block_without_items_unchanged "<Tabs>\nplain text\n</Tabs>".data (by decide)⟩

/-- The title rule in the exact wording of claim C5: the chosen source is
the label attribute if present, else the mapping lookup by the value
attribute, else the value attribute itself, else the literal Tab; the
chosen title then has markup tags stripped. -/
def claimTabTitle (labelByValue : List (String × String)) (attrs : List Char) : String :=
  match (if getAttr attrs "label".data ≠ "" then getAttr attrs "label".data
    else
      match List.lookup (getAttr attrs "value".data) labelByValue with
      | some l => l
      | none =>
        if getAttr attrs "value".data ≠ "" then getAttr attrs "value".data else "Tab") with
  | chosen => ⟨stripTags (chosen.data.length + 1) chosen.data⟩

/-- The amended title rule, matching the code: the candidate is the label
attribute if non-empty, else the mapping lookup by the value attribute if
the value attribute is non-empty, else empty; the emitted title is the
markup-stripped and trimmed candidate, or, when that is empty, the value
attribute if non-empty, else the literal Tab. -/
def amendedTabTitle (labelByValue : List (String × String)) (attrs : List Char) : String :=
  if trimList (stripTags ((tabPreferredSource labelByValue attrs).data.length + 1)
      (tabPreferredSource labelByValue attrs).data) = [] then
    (if getAttr attrs "value".data ≠ "" then getAttr attrs "value".data else "Tab")
  else
    ⟨trimList (stripTags ((tabPreferredSource labelByValue attrs).data.length + 1)
      (tabPreferredSource labelByValue attrs).data)⟩

/-- Counterexample to C5 as stated: for a child item whose label attribute
is present but consists only of markup, the claim makes the title the
markup-stripped label, which is empty, while the code falls back to the
value attribute and never consults the mapping. -/
theorem C5_counterexample_label_all_markup :
    claimTabTitle [("v", "V Label")] " label=\"<b></b>\" value=\"v\"".data ≠
      tabTitle [("v", "V Label")] " label=\"<b></b>\" value=\"v\"".data := by
  decide

/-- C5 as amended: for every recognized child tab item the emitted title
equals the markup-stripped, trimmed candidate, where the candidate is the
label attribute if non-empty, else the mapping lookup by the value
attribute if that attribute is non-empty, else empty, and a candidate
stripping to empty falls through to the value attribute if non-empty, else
the literal Tab; the title is emitted as a title attribute with ampersand,
double quote and both angle brackets HTML-entity-escaped, wrapping the
trimmed body re-indented by three spaces. -/
theorem C5_tab_title_amended (labelByValue : List (String × String))
    (attrs body : List Char) :
    tabTitle labelByValue attrs = amendedTabTitle labelByValue attrs ∧
    renderTab labelByValue (attrs, body) =
      "  <Tab title=\"".data ++
        escapeHtmlAttribute (amendedTabTitle labelByValue attrs).data ++
        "\">".data ++ '\n' :: (indentBlock ⟨trimList body⟩ "   ").data ++
        '\n' :: "  </Tab>".data := by
  have htitle : tabTitle labelByValue attrs = amendedTabTitle labelByValue attrs := by
    unfold tabTitle sanitizeLabel amendedTabTitle
    cases htl : trimList (stripTags ((tabPreferredSource labelByValue attrs).data.length + 1)
        (tabPreferredSource labelByValue attrs).data) with
    | nil => simp [htl]
    | cons c cs => simp [htl]
  exact ⟨htitle, by unfold renderTab; rw [htitle]⟩

/-! ## C3: script and event-handler stripping

Source: src/transform/mdastPlugins.mjs, remarkStripScriptsAndHandlers
(lines 79 to 116; the copy in src/transform/scriptsAndHandlers.mjs is
identical).  For each raw html node the value goes through two global
regex replaces: complete script blocks are replaced by a literal comment
marker with one log entry per removal, then inline event-handler
attributes are removed keeping the tag, with one log entry per removal.
The parallel warnings array duplicates the log entries in prose and is
not modelled.  The handler regex consumes the matched span up to the end
of the removed handler value and the scan resumes there, so a second
handler attribute inside the same tag is not seen again; that behaviour
is exactly what claim C3 is settled against.
-/

/-- Case-insensitive literal prefix test (ASCII). -/
def ciPrefix (needle hay : List Char) : Bool :=
  needle = (hay.take needle.length).map Char.toLower

/-- The truncate helper of mdastPlugins.mjs lines 204 to 207. -/
def truncateSnippet (cs : List Char) (n : Nat) : List Char :=
  if cs.length ≤ n then cs else cs.take (n - 1) ++ ['…']

/-- Matcher for the script closer pattern, open bracket, optional
whitespace, slash, optional whitespace, the word script case-insensitively,
optional whitespace, closing bracket; returns the rest after the closer. -/
def matchScriptCloseAt (cs : List Char) : Option (List Char) :=
  match cs with
  | '<' :: r1 =>
    match r1.dropWhile isJsWs with
    | '/' :: r3 =>
      let r4 := r3.dropWhile isJsWs
      if ciPrefix "script".data r4 then
        match (r4.drop 6).dropWhile isJsWs with
        | '>' :: r7 => some r7
        | _ => none
      else none
    | _ => none
  | _ => none

/-- Split the region after a script opener at the first script closer,
returning the lazily captured code and the rest after the closer. -/
def splitAtScriptClose : List Char → Option (List Char × List Char)
  | [] => none
  | c :: cs =>
    match matchScriptCloseAt (c :: cs) with
    | some rest => some ([], rest)
    | none =>
      match splitAtScriptClose cs with
      | some (pre, post) => some (c :: pre, post)
      | none => none

/-- Matcher for the script opener pattern at one position: open bracket,
optional whitespace, the word script case-insensitively, a word boundary,
the attribute span up to the first closing bracket, the closing bracket;
returns the attributes and the rest after the opening tag. -/
def matchScriptOpenAt (cs : List Char) : Option (List Char × List Char) :=
  match cs with
  | '<' :: r1 =>
    let r2 := r1.dropWhile isJsWs
    if ciPrefix "script".data r2 then
      match r2.drop 6 with
      | [] => none
      | b :: _ =>
        if wordChar b then none
        else
          let attrs := (r2.drop 6).takeWhile (fun a => a ≠ '>')
          match (r2.drop 6).drop attrs.length with
          | '>' :: r4 => some (attrs, r4)
          | _ => none
    else none
  | _ => none

/-- Matcher for the src attribute pattern inside a script opening tag: the
word src case-insensitively, optional whitespace, equals, optional
whitespace, a quote of either kind, the lazily captured value (which may
not cross a newline since the dot class excludes it) up to the same
quote. -/
def matchSrcAt (l : List Char) : Option (List Char) :=
  if ciPrefix "src".data l then
    match (l.drop 3).dropWhile isJsWs with
    | '=' :: r2 =>
      match r2.dropWhile isJsWs with
      | q :: r4 =>
        if q = dq || q = sq then
          match splitAtSub [q] r4 with
          | some (inner, _) => if '\n' ∈ inner then none else some inner
          | none => none
        else none
      | [] => none
    | _ => none
  else none

/-- Scan for the src attribute with the word-boundary assertion before it:
the previous character, when there is one, must not be a word character. -/
def scanSrcAux (prev : Option Char) : List Char → Option (List Char)
  | [] => none
  | c :: cs =>
    match (if (match prev with | none => true | some p => !wordChar p) then
        matchSrcAt (c :: cs) else none) with
    | some inner => some inner
    | none => scanSrcAux (some c) cs

/-- The replacement marker inserted for every removed script block. -/
def scriptRemovedMarker : List Char :=
  "\n\x7b/* ❗ Script removed: replace with an MDX component. */\x7d\n".data

/-- The log entries pushed for one removed script block: the source URL
when a truthy src attribute is present, else the trimmed inline code when
non-empty, else nothing. -/
def scriptLogEntries (attrs code : List Char) : List String :=
  match scanSrcAux none attrs with
  | some url =>
    if url ≠ [] then [⟨"SCRIPT SRC: ".data ++ url⟩]
    else if trimList code ≠ [] then [⟨"SCRIPT INLINE CODE:\n".data ++ trimList code⟩]
    else []
  | none =>
    if trimList code ≠ [] then [⟨"SCRIPT INLINE CODE:\n".data ++ trimList code⟩]
    else []

/-- The global script-block replace with its log entries, mdastPlugins.mjs
lines 86 to 101. -/
def stripScriptsAux (fuel : Nat) (cs : List Char) : List Char × List String :=
  match fuel, cs with
  | 0, cs => (cs, [])
  | _ + 1, [] => ([], [])
  | fuel + 1, c :: rest =>
    match (match matchScriptOpenAt (c :: rest) with
      | some (attrs, afterOpen) =>
        match splitAtScriptClose afterOpen with
        | some (code, after) => some (attrs, code, after)
        | none => none
      | none => none) with
    | some (attrs, code, after) =>
      match stripScriptsAux fuel after with
      | (out, logs) => (scriptRemovedMarker ++ out, scriptLogEntries attrs code ++ logs)
    | none =>
      match stripScriptsAux fuel rest with
      | (out, logs) => (c :: out, logs)

/-- Script stripping with ample fuel. -/
def stripScripts (cs : List Char) : List Char × List String :=
  stripScriptsAux (cs.length + 1) cs

/-- The deterministic tail of the handler regex after the lazily captured
tag-start group: mandatory whitespace, the word on, a capital letter, one
or more further letters, optional whitespace, equals, optional whitespace,
then a double-quoted, single-quoted or brace-wrapped value; returns the
rest after the value. -/
def handlerTailAt (cs : List Char) : Option (List Char) :=
  match cs.takeWhile isJsWs with
  | [] => none
  | wsrun =>
    match cs.drop wsrun.length with
    | 'o' :: 'n' :: c3 :: r3 =>
      if 'A' ≤ c3 && c3 ≤ 'Z' then
        match r3.takeWhile (fun a => ('A' ≤ a && a ≤ 'Z') || ('a' ≤ a && a ≤ 'z')) with
        | [] => none
        | letters =>
          match (r3.drop letters.length).dropWhile isJsWs with
          | '=' :: r5 =>
            match r5.dropWhile isJsWs with
            | q :: r7 =>
              if q = dq || q = sq then
                match splitAtSub [q] r7 with
                | some (_, rest) => some rest
                | none => none
              else if q = '{' then
                match splitAtSub ['}'] r7 with
                | some (_, rest) => some rest
                | none => none
              else none
            | [] => none
          | _ => none
      else none
    | _ => none

/-- Growth of the lazy tag-start group of the handler regex: the tail is
tried before every growth step, and the group may not contain a closing
angle bracket. -/
def handlerScanGroup (grp : List Char) : List Char → Option (List Char × List Char)
  | [] => none
  | c :: rest =>
    match handlerTailAt (c :: rest) with
    | some after => some (grp, after)
    | none =>
      if c = '>' then none
      else handlerScanGroup (grp ++ [c]) rest

/-- Matcher for one handler removal at one position: an open bracket and a
letter start the captured group. -/
def matchHandlerAt (cs : List Char) : Option (List Char × List Char) :=
  match cs with
  | '<' :: c1 :: rest =>
    if ('A' ≤ c1 && c1 ≤ 'Z') || ('a' ≤ c1 && c1 ≤ 'z') then
      handlerScanGroup ['<', c1] rest
    else none
  | _ => none

/-- The global handler replace with its log entries, mdastPlugins.mjs
lines 104 to 111: each match is replaced by its captured tag-start group
and logged with the group truncated to eighty characters. -/
def stripHandlersAux (fuel : Nat) (cs : List Char) : List Char × List String :=
  match fuel, cs with
  | 0, cs => (cs, [])
  | _ + 1, [] => ([], [])
  | fuel + 1, c :: rest =>
    match matchHandlerAt (c :: rest) with
    | some (grp, after) =>
      match stripHandlersAux fuel after with
      | (out, logs) =>
        (grp ++ out,
          (⟨"INLINE HANDLER removed in: ".data ++ truncateSnippet grp 80⟩ : String) :: logs)
    | none =>
      match stripHandlersAux fuel rest with
      | (out, logs) => (c :: out, logs)

/-- Handler stripping with ample fuel. -/
def stripHandlers (cs : List Char) : List Char × List String :=
  stripHandlersAux (cs.length + 1) cs

/-- Embedding of the per-node body of remarkStripScriptsAndHandlers: the
script replace followed by the handler replace on its output, with the log
entries of both in push order. -/
def stripScriptsAndHandlersHtml (value : List Char) : List Char × List String :=
  match stripScripts value with
  | (afterScripts, logs1) =>
    match stripHandlers afterScripts with
    | (afterHandlers, logs2) => (afterHandlers, logs1 ++ logs2)

/-- C3 is a code bug: on a raw markup node carrying two inline event
handlers in one tag, the stripping stage removes only the first handler
and logs one entry; the second handler attribute survives in the node
text, still matched by the very handler pattern of the stage, although
the specification promises that no inline event-handler attribute
survives. -/
theorem C3_second_handler_survives :
    stripScriptsAndHandlersHtml
        "<div onClick=\"alert(1)\" onMouseOver=\"x()\">hi</div>".data =
      ("<div onMouseOver=\"x()\">hi</div>".data,
        ["INLINE HANDLER removed in: <div"]) ∧
    (stripHandlers "<div onMouseOver=\"x()\">hi</div>".data).1 ≠
      "<div onMouseOver=\"x()\">hi</div>".data := by
  decide

/-! ## C6: textual rewrite of image occurrences

Source: src/unnamed/part_002, rewriteAllImageOccurrences (lines 83 to 118).
For every pair of an original path and a hosted URL the function runs five
global replaces in order: the placeholder comment marker, the legacy
missing-image literal marker, the native Markdown image syntax, the raw
img-tag syntax, and the image-loading helper call.  In the source text,
the third and the fifth pattern are corrupted: the template literal for
the Markdown pattern reads

  (!$begin:math:display$[^\$end:math:display$]*\]$begin:math:text$) esc (\$end:math:text$)

and the helper-call pattern reads

  useBaseUrl$begin:math:text$\\s*([quote])esc\\1\\s*\\$end:math:text$

that is, the escape sequences for the bracket and parenthesis characters
were replaced by literal begin-math and end-math token runs.  Both are
syntactically valid regular expressions, but each requires the end-of-
input anchor (the unescaped dollar) to be followed by further literal
characters, which no string satisfies, so both replaces match nothing and
are the identity on every input.  That is a transcription slip, not
intent: the function name, the surrounding manifest code and the
repository documentation all promise that every occurrence form is
rewritten.
-/

/-- Generic global replace driven by a positional matcher that returns the
replacement text and the rest after the match. -/
def replaceAllWith (m : List Char → Option (List Char × List Char)) :
    Nat → List Char → List Char
  | 0, cs => cs
  | _ + 1, [] => []
  | fuel + 1, c :: rest =>
    match m (c :: rest) with
    | some (repl, after) => repl ++ replaceAllWith m fuel after
    | none => c :: replaceAllWith m fuel rest

/-- Matcher for a literal needle, used for the placeholder pattern whose
regex-escaped source matches the literal text. -/
def matchLitAt (needle repl : List Char) (cs : List Char) : Option (List Char × List Char) :=
  if needle ≠ [] && needle.isPrefixOf cs then some (repl, cs.drop needle.length)
  else none

/-- Backtracking of the greedy whitespace run before the literal original
path of the missing-image pattern: the longest split with at least one
whitespace character wins. -/
def wsBacktrack (orig cs : List Char) : Nat → Option (List Char)
  | 0 => none
  | k + 1 =>
    if orig.isPrefixOf (cs.drop (k + 1)) then some ((cs.drop (k + 1)).drop orig.length)
    else wsBacktrack orig cs k

/-- Matcher for the missing-image pattern: the bold marker literal, one or
more whitespace characters, then the literal original path. -/
def matchMissingAt (orig repl : List Char) (cs : List Char) : Option (List Char × List Char) :=
  if "**MISSING IMAGE!**".data.isPrefixOf cs then
    let r := cs.drop 18
    match wsBacktrack orig r ((r.takeWhile isJsWs).length) with
    | some rest => some (repl, rest)
    | none => none
  else none

/-- The deterministic tail of the img-tag pattern from one candidate src
position: the literal src and equals sign, a quote of either kind, the
literal original path, and the same quote again. -/
def imgSrcTail (orig : List Char) (sub : List Char) : Option (List Char) :=
  if "src=".data.isPrefixOf sub then
    match sub.drop 4 with
    | q :: r2 =>
      if q = dq || q = sq then
        if orig.isPrefixOf r2 then
          match r2.drop orig.length with
          | q2 :: rest => if q2 = q then some rest else none
          | [] => none
        else none
      else none
    | [] => none
  else none

/-- Greedy backtracking of the bracket-free gap of the img-tag pattern:
the largest src position within the bracket-free prefix wins, and the
character before the src literal must not be a word character. -/
def imgBacktrack (orig : List Char) (r : List Char) : Nat → Option (Nat × List Char)
  | 0 => none
  | p + 1 =>
    match r.drop p with
    | prev :: sub =>
      if !wordChar prev then
        match imgSrcTail orig sub with
        | some rest => some (p + 1, rest)
        | none => imgBacktrack orig r p
      else imgBacktrack orig r p
    | [] => imgBacktrack orig r p

/-- Matcher for the img-tag pattern: the literal img opener with a word
boundary, the greedy bracket-free gap, a word boundary, the src attribute
with the literal original path, replaced by the captured opener with the
double-quoted URL. -/
def matchImgAt (orig url : List Char) (cs : List Char) : Option (List Char × List Char) :=
  match cs with
  | '<' :: 'i' :: 'm' :: 'g' :: r =>
    match r with
    | [] => none
    | b :: _ =>
      if wordChar b then none
      else
        match imgBacktrack orig r ((r.takeWhile (fun a => a ≠ '>')).length) with
        | some (p, rest) =>
          some ("<img".data ++ r.take p ++ "src=".data ++ dq :: url ++ [dq], rest)
        | none => none
  | _ => none

/-- The corrupted Markdown-image replace of rewriteAllImageOccurrences:
its pattern contains mid-pattern end-of-input anchors followed by literal
begin-math and end-math token text, so it matches no string and the
replace is the identity. -/
def mdImagePatternStep (_orig _url : String) (md : List Char) : List Char := md

/-- The corrupted helper-call replace of rewriteAllImageOccurrences: the
same corruption as the Markdown pattern, likewise the identity. -/
def useBaseUrlPatternStep (_orig _url : String) (md : List Char) : List Char := md

/-- The replacement text inserted by the placeholder and missing-image
replaces. -/
def hostedImgTag (url : String) : List Char :=
  "<img src=\"".data ++ url.data ++ "\" alt=\"\" />".data

/-- The placeholder-comment replace, the first substitution of the
source. -/
def placeholderStep (orig url : String) (md : List Char) : List Char :=
  replaceAllWith
    (matchLitAt ("<!--IMAGE_PLACEHOLDER:".data ++ orig.data ++ "-->".data)
      (hostedImgTag url)) (md.length + 1) md

/-- The legacy missing-image-marker replace, the second substitution of
the source. -/
def missingImageStep (orig url : String) (md : List Char) : List Char :=
  replaceAllWith (matchMissingAt orig.data (hostedImgTag url)) (md.length + 1) md

/-- The raw img-tag replace, the fourth substitution of the source. -/
def imgTagStep (orig url : String) (md : List Char) : List Char :=
  replaceAllWith (matchImgAt orig.data url.data) (md.length + 1) md

/-- The five replaces of rewriteAllImageOccurrences for one mapping pair,
in source order; a pair with an empty path or URL is skipped. -/
def rewriteImagePair (orig url : String) (md : List Char) : List Char :=
  if orig = "" || url = "" then md
  else
    imgTagStep orig url
      (useBaseUrlPatternStep orig url
        (mdImagePatternStep orig url
          (missingImageStep orig url (placeholderStep orig url md))))

/-- Embedding of rewriteAllImageOccurrences: the pair replaces folded over
the mapping in order. -/
def rewriteAllImageOccurrences (md : String) (mapping : List (String × String)) : String :=
  ⟨mapping.foldl (fun out p => rewriteImagePair p.1 p.2 out) md.data⟩

/-- Substring test used to state what survives a rewrite. -/
def containsSub (needle hay : List Char) : Bool :=
  (splitAtSub needle hay).isSome

/-- C6 is a code bug: for a document referencing the same image once in
Markdown image syntax and once as a raw img tag, with a successful mapping
for that path, the rewrite updates the img tag but leaves the Markdown
image occurrence untouched, because the Markdown and helper-call patterns
of the source are corrupted into never-matching regexes.  The claim, and
the specification, promise that both occurrences are rewritten to the
hosted URL. -/
theorem C6_markdown_image_not_rewritten :
    rewriteAllImageOccurrences
        "Intro ![alt](/img/a.png) and <img src=\"/img/a.png\"> done"
        [("/img/a.png", "https://host/i/a.png")] =
      "Intro ![alt](/img/a.png) and <img src=\"https://host/i/a.png\"> done" ∧
    containsSub "![alt](/img/a.png)".data
      (rewriteAllImageOccurrences
        "Intro ![alt](/img/a.png) and <img src=\"/img/a.png\"> done"
        [("/img/a.png", "https://host/i/a.png")]).data = true := by
  constructor
  · decide
  · decide

/-! ## C9: the admonition-to-callout pre-pass and its idempotence

Source: src/transform/callouts.mjs, convertNoteTipBlocks (lines 1 to 37)
and indentBlock (lines 39 to 44).  The function runs three global,
multiline, case-insensitive regex replaces, one per admonition kind in the
order info, tip, note.  Each pattern is anchored: a line starting with the
three-colon marker and the kind keyword, the rest of that line, then the
lazily captured body, then a line holding only the three-colon closer and
trailing whitespace (the trailing whitespace of the pattern greedily also
swallows immediately following whitespace-only lines).

The embedding works on the line decomposition of the text: a match is an
opener line, at least one body line, and the first closer line at least
two lines below the opener; the match consumes the closer line together
with the whitespace-only lines after it; the replacement block is the
callout wrapper with the trimmed body re-indented by two spaces.  Because
every anchor of the patterns is a line boundary, this line model is exact
for newline-separated text (the JavaScript engine also treats a bare
carriage return as a line terminator for the multiline anchors; the model
uses the newline as the sole separator).
-/

/-- A line starting with the three-colon marker; both openers and closers
have this shape, and no replacement line does. -/
def isColon3 (l : List Char) : Bool :=
  ":::".data.isPrefixOf l

/-- A line consisting of whitespace only. -/
def isAllWsLine (l : List Char) : Bool :=
  l.all isJsWs

/-- A closer line: the three-colon marker followed by whitespace only. -/
def isCloserLine (l : List Char) : Bool :=
  isColon3 l && isAllWsLine (l.drop 3)

/-- An opener line for a kind keyword: the three-colon marker followed
case-insensitively by the keyword, with an arbitrary rest of line. -/
def isOpenerLine (kw : List Char) (l : List Char) : Bool :=
  isColon3 l && kw = ((l.drop 3).take kw.length).map Char.toLower

/-- Split a line list at the first closer line. -/
def breakAtCloser : List (List Char) → Option (List (List Char) × List Char × List (List Char))
  | [] => none
  | x :: xs =>
    if isCloserLine x then some ([], x, xs)
    else
      match breakAtCloser xs with
      | some (pre, c, after) => some (x :: pre, c, after)
      | none => none

theorem breakAtCloser_eq_none (xs : List (List Char)) :
    breakAtCloser xs = none ↔ ∀ x ∈ xs, isCloserLine x = false := by
  induction xs with
  | nil => simp [breakAtCloser]
  | cons x xs ih =>
    by_cases hx : isCloserLine x
    · simp [breakAtCloser, hx]
    · simp only [breakAtCloser, if_neg hx]
      cases hb : breakAtCloser xs with
      | some r =>
        simp only [hb]
        constructor
        · intro h; cases h
        · intro h
          have : breakAtCloser xs = none := ih.mpr (fun y hy => h y (List.mem_cons_of_mem _ hy))
          rw [this] at hb
          cases hb
      | none =>
        rw [hb] at ih
        simp only [hb]
        constructor
        · intro _
          intro y hy
          rcases List.mem_cons.mp hy with rfl | hy
          · simpa using hx
          · exact (ih.mp rfl) y hy
        · intro _; trivial

theorem breakAtCloser_eq_some (xs : List (List Char)) (pre : List (List Char))
    (c : List Char) (after : List (List Char))
    (h : breakAtCloser xs = some (pre, c, after)) :
    xs = pre ++ c :: after ∧ isCloserLine c = true := by
  induction xs generalizing pre with
  | nil => simp [breakAtCloser] at h
  | cons x xs ih =>
    by_cases hx : isCloserLine x
    · simp only [breakAtCloser, if_pos hx] at h
      cases h
      exact ⟨rfl, hx⟩
    · simp only [breakAtCloser, if_neg hx] at h
      cases hb : breakAtCloser xs with
      | none => rw [hb] at h; cases h
      | some r =>
        rw [hb] at h
        cases r with
        | mk pre2 rest2 =>
          cases rest2 with
          | mk c2 after2 =>
            cases h
            have := ih pre2 hb
            exact ⟨by rw [this.1]; rfl, this.2⟩

/-- The opener match attempt of one pattern at one opener line: the lines
after the opener must hold a closer at distance two or more; the captured
body is the joined lines strictly between opener and closer, and the scan
resumes after the closer and the whitespace-only lines it swallows. -/
def findOpenerMatch (ls : List (List Char)) : Option (List Char × List (List Char)) :=
  match ls with
  | [] => none
  | m :: rest =>
    match breakAtCloser rest with
    | some (pre, _c, after) =>
      some (joinCh '\n' (m :: pre), after.dropWhile isAllWsLine)
    | none => none

theorem length_dropWhile_le {α : Type} (p : α → Bool) (l : List α) :
    (l.dropWhile p).length ≤ l.length := by
  induction l with
  | nil => simp
  | cons x xs ih =>
    by_cases hx : p x
    · simp only [List.dropWhile, hx]
      exact Nat.le_succ_of_le ih
    · simp [List.dropWhile, hx]

theorem findOpenerMatch_length (ls : List (List Char)) (inner : List Char)
    (after2 : List (List Char)) (h : findOpenerMatch ls = some (inner, after2)) :
    after2.length < ls.length := by
  cases ls with
  | nil => simp [findOpenerMatch] at h
  | cons m rest =>
    simp only [findOpenerMatch] at h
    cases hb : breakAtCloser rest with
    | none => rw [hb] at h; cases h
    | some r =>
      rw [hb] at h
      cases r with
      | mk pre rest2 =>
        cases rest2 with
        | mk c after =>
          cases h
          have hdec := (breakAtCloser_eq_some rest pre c after hb).1
          have hlen : after.length < rest.length := by
            rw [hdec]
            simp only [List.length_append, List.length_cons]
            omega
          have hdw := length_dropWhile_le isAllWsLine after
          simp only [List.length_cons]
          omega

/-- One global replace of one admonition pattern over the line list: at an
opener line with a reachable closer the match is replaced by the
replacement block and the scan resumes after the match; everywhere else
the line is kept and the scan moves one line down. -/
def convertPass (isOp : List Char → Bool) (repl : List Char → List (List Char)) :
    List (List Char) → List (List Char)
  | [] => []
  | l :: ls =>
    if isOp l then
      match hm : findOpenerMatch ls with
      | some (inner, after2) => repl inner ++ convertPass isOp repl after2
      | none => l :: convertPass isOp repl ls
    else l :: convertPass isOp repl ls
termination_by ls => ls.length
decreasing_by
  · simp only [List.length_cons]
    have := findOpenerMatch_length ls inner after2 hm
    omega
  · simp
  · simp

/-- Presence of a closer line anywhere. -/
def hasCloser (t : List (List Char)) : Bool :=
  t.any isCloserLine

/-- Presence of a full pattern match: an opener line with a closer line at
distance at least two. -/
def hasMatch (isOp : List Char → Bool) : List (List Char) → Bool
  | [] => false
  | l :: ls => (isOp l && hasCloser (ls.drop 1)) || hasMatch isOp ls

theorem convertPass_nil (isOp : List Char → Bool) (repl : List Char → List (List Char)) :
    convertPass isOp repl [] = [] := by
  simp [convertPass]

theorem convertPass_cons_op_match {isOp : List Char → Bool}
    {repl : List Char → List (List Char)} {l : List Char} {ls : List (List Char)}
    {inner : List Char} {after2 : List (List Char)}
    (h1 : isOp l = true) (h2 : findOpenerMatch ls = some (inner, after2)) :
    convertPass isOp repl (l :: ls) = repl inner ++ convertPass isOp repl after2 := by
  rw [convertPass]
  simp only [h1, if_true]
  split
  · rename_i inner2 after2b heq
    rw [h2] at heq
    cases heq
    rfl
  · rename_i heq
    rw [h2] at heq
    cases heq

theorem convertPass_cons_op_none {isOp : List Char → Bool}
    {repl : List Char → List (List Char)} {l : List Char} {ls : List (List Char)}
    (h1 : isOp l = true) (h2 : findOpenerMatch ls = none) :
    convertPass isOp repl (l :: ls) = l :: convertPass isOp repl ls := by
  rw [convertPass]
  simp only [h1, if_true]
  split
  · rename_i inner2 after2b heq
    rw [h2] at heq
    cases heq
  · rfl

theorem convertPass_cons_not_op {isOp : List Char → Bool}
    {repl : List Char → List (List Char)} {l : List Char} {ls : List (List Char)}
    (h1 : isOp l = false) :
    convertPass isOp repl (l :: ls) = l :: convertPass isOp repl ls := by
  rw [convertPass]
  simp [h1]

theorem isColon3_of_closer {l : List Char} (h : isCloserLine l = true) :
    isColon3 l = true := by
  unfold isCloserLine at h
  simp only [Bool.and_eq_true] at h
  exact h.1

theorem mem_of_mem_dropWhile {α : Type} {p : α → Bool} {x : α} {l : List α}
    (h : x ∈ l.dropWhile p) : x ∈ l := by
  induction l with
  | nil => simpa using h
  | cons a l ih =>
    by_cases ha : p a
    · simp only [List.dropWhile, ha] at h
      exact List.mem_cons_of_mem a (ih h)
    · simpa [List.dropWhile, ha] using h

theorem findOpenerMatch_decomp {ls : List (List Char)} {inner : List Char}
    {after2 : List (List Char)} (h : findOpenerMatch ls = some (inner, after2)) :
    ∃ m pre c after, ls = m :: pre ++ c :: after ∧ isCloserLine c = true ∧
      after2 = after.dropWhile isAllWsLine ∧ inner = joinCh '\n' (m :: pre) := by
  cases ls with
  | nil => simp [findOpenerMatch] at h
  | cons m rest =>
    simp only [findOpenerMatch] at h
    cases hb : breakAtCloser rest with
    | none => rw [hb] at h; cases h
    | some r =>
      rw [hb] at h
      cases r with
      | mk pre rest2 =>
        cases rest2 with
        | mk c after =>
          cases h
          have hd := breakAtCloser_eq_some rest pre c after hb
          exact ⟨m, pre, c, after, by rw [hd.1]; simp, hd.2, rfl, rfl⟩

theorem findOpenerMatch_none_of_closer_free {ls : List (List Char)}
    (h : ∀ x ∈ ls.drop 1, isCloserLine x = false) :
    findOpenerMatch ls = none := by
  cases ls with
  | nil => rfl
  | cons m rest =>
    simp only [findOpenerMatch]
    have : breakAtCloser rest = none := (breakAtCloser_eq_none rest).mpr (by simpa using h)
    rw [this]

theorem convertPass_of_closer_free {isOp : List Char → Bool}
    {repl : List Char → List (List Char)} :
    ∀ {xs : List (List Char)}, (∀ x ∈ xs, isCloserLine x = false) →
      convertPass isOp repl xs = xs := by
  intro xs
  induction xs with
  | nil => intro _; exact convertPass_nil isOp repl
  | cons l ls ih =>
    intro h
    have hls : ∀ x ∈ ls, isCloserLine x = false :=
      fun x hx => h x (List.mem_cons_of_mem _ hx)
    by_cases hop : isOp l
    · have hfm : findOpenerMatch ls = none :=
        findOpenerMatch_none_of_closer_free
          (fun x hx => hls x (List.drop_subset 1 ls hx))
      rw [convertPass_cons_op_none hop hfm, ih hls]
    · rw [convertPass_cons_not_op (by simpa using hop), ih hls]

theorem hasCloser_eq_false_of_free {xs : List (List Char)}
    (h : ∀ x ∈ xs, isCloserLine x = false) : hasCloser xs = false := by
  unfold hasCloser
  rw [List.any_eq_false]
  intro x hx
  simp [h x hx]

theorem hasMatch_of_closer_free {isOp : List Char → Bool} :
    ∀ {xs : List (List Char)}, (∀ x ∈ xs, isCloserLine x = false) →
      hasMatch isOp xs = false := by
  intro xs
  induction xs with
  | nil => intro _; rfl
  | cons l ls ih =>
    intro h
    have hls : ∀ x ∈ ls, isCloserLine x = false :=
      fun x hx => h x (List.mem_cons_of_mem _ hx)
    have htail : ∀ x ∈ ls.tail, isCloserLine x = false :=
      fun x hx => hls x (List.mem_of_mem_tail hx)
    simp [hasMatch, List.drop_one, hasCloser_eq_false_of_free htail, ih hls]

theorem hasMatch_cons_closer_free {isOp : List Char → Bool} {l : List Char}
    {ls : List (List Char)} (h : ∀ x ∈ ls, isCloserLine x = false) :
    hasMatch isOp (l :: ls) = false := by
  have htail : ∀ x ∈ ls.tail, isCloserLine x = false :=
    fun x hx => h x (List.mem_of_mem_tail hx)
  simp [hasMatch, List.drop_one, hasCloser_eq_false_of_free htail, hasMatch_of_closer_free h]

theorem convertPass_of_no_openermatch {isOp : List Char → Bool}
    {repl : List Char → List (List Char)} {ls : List (List Char)}
    (h : findOpenerMatch ls = none) : convertPass isOp repl ls = ls := by
  cases ls with
  | nil => exact convertPass_nil isOp repl
  | cons m rest =>
    simp only [findOpenerMatch] at h
    cases hb : breakAtCloser rest with
    | some r => rw [hb] at h; cases r with | mk a b => cases b with | mk c d => cases h
    | none =>
      have hfree : ∀ x ∈ rest, isCloserLine x = false := (breakAtCloser_eq_none rest).mp hb
      by_cases hop : isOp m
      · have hfm2 : findOpenerMatch rest = none :=
          findOpenerMatch_none_of_closer_free
            (fun x hx => hfree x (List.drop_subset 1 rest hx))
        rw [convertPass_cons_op_none hop hfm2, convertPass_of_closer_free hfree]
      · rw [convertPass_cons_not_op (by simpa using hop), convertPass_of_closer_free hfree]

theorem hasCloser_append (a b : List (List Char)) :
    hasCloser (a ++ b) = (hasCloser a || hasCloser b) := by
  simp [hasCloser, List.any_append]

theorem hasCloser_convertPass {isOp : List Char → Bool}
    {repl : List Char → List (List Char)}
    (HreplColon : ∀ inner b, b ∈ repl inner → isColon3 b = false) :
    ∀ (n : Nat) (ls : List (List Char)), ls.length ≤ n →
      hasCloser (convertPass isOp repl ls) = true → hasCloser ls = true := by
  intro n
  induction n with
  | zero =>
    intro ls hlen h
    have : ls = [] := List.length_eq_zero.mp (Nat.le_zero.mp hlen)
    subst this
    rw [convertPass_nil] at h
    simpa [hasCloser] using h
  | succ n ih =>
    intro ls hlen h
    cases ls with
    | nil => rw [convertPass_nil] at h; simpa [hasCloser] using h
    | cons l ls =>
      by_cases hop : isOp l
      · cases hfm : findOpenerMatch ls with
        | some pr =>
          cases pr with
          | mk inner after2 =>
            rw [convertPass_cons_op_match hop hfm, hasCloser_append] at h
            rcases Bool.or_eq_true_iff.mp h with hA | hB
            · rcases List.any_eq_true.mp hA with ⟨b, hbmem, hbc⟩
              have := HreplColon inner b hbmem
              rw [isColon3_of_closer hbc] at this
              cases this
            · have hlen2 : after2.length ≤ n := by
                have h1 := findOpenerMatch_length ls inner after2 hfm
                simp only [List.length_cons] at hlen
                omega
              have hcl := ih after2 hlen2 hB
              obtain ⟨m, pre, c, after, hdec, hcc, hdw, -⟩ := findOpenerMatch_decomp hfm
              rcases List.any_eq_true.mp hcl with ⟨x, hxmem, hxc⟩
              have hxafter : x ∈ after := by
                rw [hdw] at hxmem
                exact mem_of_mem_dropWhile hxmem
              apply List.any_eq_true.mpr
              refine ⟨x, ?_, hxc⟩
              rw [hdec]
              simp [hxafter]
        | none =>
          rw [convertPass_cons_op_none hop hfm] at h
          simp only [hasCloser, List.any_cons] at h ⊢
          rcases Bool.or_eq_true_iff.mp h with hA | hB
          · simp [hA]
          · have := ih ls (by simpa [Nat.succ_le_succ_iff] using hlen) hB
            simp [hasCloser] at this
            simp [this]
      · rw [convertPass_cons_not_op (by simpa using hop)] at h
        simp only [hasCloser, List.any_cons] at h ⊢
        rcases Bool.or_eq_true_iff.mp h with hA | hB
        · simp [hA]
        · have := ih ls (by simpa [Nat.succ_le_succ_iff] using hlen) hB
          simp [hasCloser] at this
          simp [this]

theorem hasCloser_drop1_convertPass {isOp : List Char → Bool}
    {repl : List Char → List (List Char)}
    (HreplColon : ∀ inner b, b ∈ repl inner → isColon3 b = false)
    (HreplNe : ∀ inner, repl inner ≠ []) (ls : List (List Char))
    (h : hasCloser ((convertPass isOp repl ls).drop 1) = true) :
    hasCloser (ls.drop 1) = true := by
  cases ls with
  | nil => rw [convertPass_nil] at h; simpa [hasCloser] using h
  | cons l ls =>
    by_cases hop : isOp l
    · cases hfm : findOpenerMatch ls with
      | some pr =>
        cases pr with
        | mk inner after2 =>
          rw [convertPass_cons_op_match hop hfm] at h
          cases hrepl : repl inner with
          | nil => exact absurd hrepl (HreplNe inner)
          | cons r0 rs =>
            rw [hrepl] at h
            simp only [List.cons_append, List.drop_succ_cons, List.drop_zero] at h
            rw [hasCloser_append] at h
            rcases Bool.or_eq_true_iff.mp h with hA | hB
            · rcases List.any_eq_true.mp hA with ⟨b, hbmem, hbc⟩
              have hbr : b ∈ repl inner := by rw [hrepl]; exact List.mem_cons_of_mem _ hbmem
              have := HreplColon inner b hbr
              rw [isColon3_of_closer hbc] at this
              cases this
            · have hcl := hasCloser_convertPass HreplColon after2.length after2 le_rfl hB
              obtain ⟨m, pre, c, after, hdec, hcc, hdw, -⟩ := findOpenerMatch_decomp hfm
              rcases List.any_eq_true.mp hcl with ⟨x, hxmem, hxc⟩
              have hxafter : x ∈ after := by
                rw [hdw] at hxmem
                exact mem_of_mem_dropWhile hxmem
              apply List.any_eq_true.mpr
              refine ⟨x, ?_, hxc⟩
              simp only [List.drop_succ_cons, List.drop_zero]
              rw [hdec]
              simp [hxafter]
      | none =>
        rw [convertPass_cons_op_none hop hfm] at h
        simp only [List.drop_succ_cons, List.drop_zero] at h ⊢
        exact hasCloser_convertPass HreplColon ls.length ls le_rfl h
    · rw [convertPass_cons_not_op (by simpa using hop)] at h
      simp only [List.drop_succ_cons, List.drop_zero] at h ⊢
      exact hasCloser_convertPass HreplColon ls.length ls le_rfl h

theorem hasMatch_append_of_opener_free {isOp : List Char → Bool} {A B : List (List Char)}
    (h : ∀ a ∈ A, isOp a = false) :
    hasMatch isOp (A ++ B) = hasMatch isOp B := by
  induction A with
  | nil => rfl
  | cons a A ih =>
    have ha : isOp a = false := h a (List.mem_cons_self _ _)
    have hA : ∀ x ∈ A, isOp x = false := fun x hx => h x (List.mem_cons_of_mem _ hx)
    simp [hasMatch, ha, ih hA]

theorem hasMatch_cons_of_tail {isOp : List Char → Bool} {y : List Char}
    {xs : List (List Char)} (h : hasMatch isOp xs = true) :
    hasMatch isOp (y :: xs) = true := by
  simp [hasMatch, h]

theorem hasMatch_append_right {isOp : List Char → Bool} {A B : List (List Char)}
    (h : hasMatch isOp B = true) : hasMatch isOp (A ++ B) = true := by
  induction A with
  | nil => simpa using h
  | cons a A ih => exact hasMatch_cons_of_tail ih

theorem hasMatch_of_dropWhile {isOp : List Char → Bool} {p : List Char → Bool}
    {xs : List (List Char)} (h : hasMatch isOp (xs.dropWhile p) = true) :
    hasMatch isOp xs = true := by
  induction xs with
  | nil => simpa using h
  | cons x xs ih =>
    by_cases hx : p x
    · simp only [List.dropWhile, hx] at h
      exact hasMatch_cons_of_tail (ih h)
    · simpa [List.dropWhile, hx] using h

theorem hasMatch_convertPass_self {isOp : List Char → Bool}
    {repl : List Char → List (List Char)}
    (HreplColon : ∀ inner b, b ∈ repl inner → isColon3 b = false)
    (HopColon : ∀ l, isOp l = true → isColon3 l = true) :
    ∀ (n : Nat) (ls : List (List Char)), ls.length ≤ n →
      hasMatch isOp (convertPass isOp repl ls) = false := by
  intro n
  induction n with
  | zero =>
    intro ls hlen
    have : ls = [] := List.length_eq_zero.mp (Nat.le_zero.mp hlen)
    subst this
    rw [convertPass_nil]
    rfl
  | succ n ih =>
    intro ls hlen
    cases ls with
    | nil => rw [convertPass_nil]; rfl
    | cons l ls =>
      by_cases hop : isOp l
      · cases hfm : findOpenerMatch ls with
        | some pr =>
          cases pr with
          | mk inner after2 =>
            rw [convertPass_cons_op_match hop hfm]
            have hofree : ∀ a ∈ repl inner, isOp a = false := by
              intro a ha
              by_cases h2 : isOp a
              · have := HopColon a h2
                rw [HreplColon inner a ha] at this
                cases this
              · simpa using h2
            rw [hasMatch_append_of_opener_free hofree]
            have hlen2 : after2.length ≤ n := by
              have h1 := findOpenerMatch_length ls inner after2 hfm
              simp only [List.length_cons] at hlen
              omega
            exact ih after2 hlen2
        | none =>
          rw [convertPass_cons_op_none hop hfm, convertPass_of_no_openermatch hfm]
          cases ls with
          | nil => simp [hasMatch, hasCloser]
          | cons m rest =>
            have hfree : ∀ x ∈ rest, isCloserLine x = false := by
              simp only [findOpenerMatch] at hfm
              cases hb : breakAtCloser rest with
              | some r =>
                rw [hb] at hfm
                cases r with
                | mk a2 b2 => cases b2 with | mk c2 d2 => cases hfm
              | none => exact (breakAtCloser_eq_none rest).mp hb
            have h1 : hasMatch isOp (m :: rest) = false := hasMatch_cons_closer_free hfree
            have hunf : hasMatch isOp (l :: m :: rest) =
                ((isOp l && hasCloser ((m :: rest).drop 1)) || hasMatch isOp (m :: rest)) := rfl
            rw [hunf, h1]
            simp [hasCloser_eq_false_of_free hfree]
      · rw [convertPass_cons_not_op (by simpa using hop)]
        have hrec := ih ls (by simpa [Nat.succ_le_succ_iff] using hlen)
        simp [hasMatch, (by simpa using hop : isOp l = false), hrec]

theorem hasMatch_convertPass_other {isOp isOp2 : List Char → Bool}
    {repl : List Char → List (List Char)}
    (HreplColon : ∀ inner b, b ∈ repl inner → isColon3 b = false)
    (HreplNe : ∀ inner, repl inner ≠ [])
    (Hop2Colon : ∀ l, isOp2 l = true → isColon3 l = true) :
    ∀ (n : Nat) (ls : List (List Char)), ls.length ≤ n →
      hasMatch isOp2 (convertPass isOp repl ls) = true → hasMatch isOp2 ls = true := by
  intro n
  induction n with
  | zero =>
    intro ls hlen h
    have : ls = [] := List.length_eq_zero.mp (Nat.le_zero.mp hlen)
    subst this
    rw [convertPass_nil] at h
    cases h
  | succ n ih =>
    intro ls hlen h
    cases ls with
    | nil => rw [convertPass_nil] at h; cases h
    | cons l ls =>
      by_cases hop : isOp l
      · cases hfm : findOpenerMatch ls with
        | some pr =>
          cases pr with
          | mk inner after2 =>
            rw [convertPass_cons_op_match hop hfm] at h
            have hofree : ∀ a ∈ repl inner, isOp2 a = false := by
              intro a ha
              by_cases h2 : isOp2 a
              · have := Hop2Colon a h2
                rw [HreplColon inner a ha] at this
                cases this
              · simpa using h2
            rw [hasMatch_append_of_opener_free hofree] at h
            have hlen2 : after2.length ≤ n := by
              have h1 := findOpenerMatch_length ls inner after2 hfm
              simp only [List.length_cons] at hlen
              omega
            have hafter2 := ih after2 hlen2 h
            obtain ⟨m, pre, c, after, hdec, hcc, hdw, -⟩ := findOpenerMatch_decomp hfm
            rw [hdw] at hafter2
            have hafter := hasMatch_of_dropWhile hafter2
            apply hasMatch_cons_of_tail
            rw [hdec]
            apply hasMatch_cons_of_tail
            exact hasMatch_append_right (hasMatch_cons_of_tail hafter)
        | none =>
          rw [convertPass_cons_op_none hop hfm, convertPass_of_no_openermatch hfm] at h
          exact h
      · rw [convertPass_cons_not_op (by simpa using hop)] at h
        simp only [hasMatch, Bool.or_eq_true, Bool.and_eq_true] at h ⊢
        rcases h with ⟨h1, h2⟩ | h3
        · left
          refine ⟨h1, ?_⟩
          rw [List.drop_one] at h2 ⊢
          cases hcp : convertPass isOp repl ls with
          | nil => rw [hcp] at h2; simp [hasCloser] at h2
          | cons q qs =>
            rw [hcp] at h2
            have hd : hasCloser ((convertPass isOp repl ls).drop 1) = true := by
              rw [hcp]
              simpa using h2
            have := hasCloser_drop1_convertPass HreplColon HreplNe ls hd
            rw [List.drop_one] at this
            exact this
        · right
          exact ih ls (by simpa [Nat.succ_le_succ_iff] using hlen) h3

theorem convertPass_of_no_match {isOp : List Char → Bool}
    {repl : List Char → List (List Char)} :
    ∀ {ls : List (List Char)}, hasMatch isOp ls = false →
      convertPass isOp repl ls = ls := by
  intro ls
  induction ls with
  | nil => intro _; exact convertPass_nil isOp repl
  | cons l ls ih =>
    intro h
    simp only [hasMatch, Bool.or_eq_false_iff, Bool.and_eq_false_iff] at h
    obtain ⟨h1, h2⟩ := h
    by_cases hop : isOp l
    · have hcl : hasCloser (ls.drop 1) = false := by
        rcases h1 with h1 | h1
        · rw [hop] at h1; cases h1
        · exact h1
      have hfm : findOpenerMatch ls = none := by
        apply findOpenerMatch_none_of_closer_free
        intro x hx
        have := List.any_eq_false.mp hcl x hx
        simpa using this
      rw [convertPass_cons_op_none hop hfm, ih h2]
    · rw [convertPass_cons_not_op (by simpa using hop), ih h2]

/-! ### The concrete replacement blocks of toCallout

Each replacement is built in the source as an array of pieces joined with
newlines; the body piece itself holds newlines, so the definitions below
give the line decomposition of the joined replacement string directly.
-/

/-- The trimmed, two-space-indented body of a callout replacement, as
lines: toCallout computes body = inner.trim() and indents it with
indentBlock(body, two spaces). -/
def calloutBodyLines (inner : List Char) : List (List Char) :=
  indentBlockLines "  ".data (splitOnCh '\n' (trimList inner))

/-- Line decomposition of the note replacement: the Callout opener line,
the bold NOTE line, a blank line, the indented body lines, the Callout
closer line. -/
def replNote (inner : List Char) : List (List Char) :=
  "<Callout icon=\"📘\" theme=\"info\">".data ::
    "  **NOTE**".data :: [] ::
      (calloutBodyLines inner ++ ["</Callout>".data])

/-- Line decomposition of the tip replacement. -/
def replTip (inner : List Char) : List (List Char) :=
  "<Callout icon=\"👍\" theme=\"okay\">".data ::
    "  Tip".data :: [] ::
      (calloutBodyLines inner ++ ["</Callout>".data])

/-- The middle piece of the info replacement: two spaces followed by the
indented body with its leading whitespace stripped, re-read as lines. -/
def infoMiddleLines (inner : List Char) : List (List Char) :=
  splitOnCh '\n' ("  ".data ++ trimStartList (joinCh '\n' (calloutBodyLines inner)))

/-- Line decomposition of the info replacement. -/
def replInfo (inner : List Char) : List (List Char) :=
  "<Callout icon=\"ℹ️\" theme=\"info\">".data ::
    (infoMiddleLines inner ++ ["</Callout>".data])

theorem dropTrailingCR_not_mem {c : Char} {l : List Char} (h : c ∉ l) :
    c ∉ dropTrailingCR l := by
  unfold dropTrailingCR
  split
  · intro hmem
    exact h (List.dropLast_subset l hmem)
  · exact h

theorem mem_calloutBodyLines {inner b : List Char} (h : b ∈ calloutBodyLines inner) :
    b = [] ∨ ∃ l, ('\n' ∉ l) ∧ b = ' ' :: ' ' :: l := by
  unfold calloutBodyLines indentBlockLines at h
  simp only [List.map_map, List.mem_map, Function.comp] at h
  obtain ⟨l, hl, hb⟩ := h
  have hnl : '\n' ∉ l := not_mem_of_mem_splitOnCh '\n' _ l hl
  have hnl2 : '\n' ∉ dropTrailingCR l := dropTrailingCR_not_mem hnl
  by_cases hz : dropTrailingCR l = []
  · left
    rw [← hb]
    simp [hz]
  · right
    refine ⟨dropTrailingCR l, hnl2, ?_⟩
    rw [← hb]
    rw [if_neg hz]
    rfl

theorem isColon3_space (l : List Char) : isColon3 (' ' :: l) = false := by
  have h3 : ":::".data = [':', ':', ':'] := rfl
  simp only [isColon3, h3, List.isPrefixOf]
  simp

theorem calloutBodyLines_colon_free {inner b : List Char}
    (h : b ∈ calloutBodyLines inner) : isColon3 b = false := by
  rcases mem_calloutBodyLines h with rfl | ⟨l, -, rfl⟩
  · decide
  · exact isColon3_space _

theorem calloutBodyLines_nl_free {inner b : List Char}
    (h : b ∈ calloutBodyLines inner) : '\n' ∉ b := by
  rcases mem_calloutBodyLines h with rfl | ⟨l, hnl, rfl⟩
  · simp
  · simp [hnl]

theorem splitOnCh_append_front (sep : Char) (xs t : List Char) (h : sep ∉ xs) :
    ∃ y ys, splitOnCh sep t = y :: ys ∧ splitOnCh sep (xs ++ t) = (xs ++ y) :: ys := by
  induction xs with
  | nil =>
    cases hs : splitOnCh sep t with
    | nil => exact absurd hs (splitOnCh_ne_nil sep t)
    | cons y ys => exact ⟨y, ys, rfl, by simpa using hs⟩
  | cons c cs ih =>
    have hc : ¬ c = sep := by intro hc; exact h (by simp [hc])
    have hcs : sep ∉ cs := by intro hm; exact h (List.mem_cons_of_mem _ hm)
    obtain ⟨y, ys, h1, h2⟩ := ih hcs
    refine ⟨y, ys, h1, ?_⟩
    simp only [List.cons_append, splitOnCh, if_neg hc]
    simp [h2]

theorem dropWhile_append_of_all {p : Char → Bool} {xs ys : List Char}
    (h : ∀ x ∈ xs, p x = true) : (xs ++ ys).dropWhile p = ys.dropWhile p := by
  induction xs with
  | nil => rfl
  | cons x xs ih =>
    rw [List.cons_append, List.dropWhile_cons, if_pos (h x (List.mem_cons_self _ _))]
    exact ih (fun a ha => h a (List.mem_cons_of_mem _ ha))

theorem dropWhile_append_of_head {p : Char → Bool} {xs ys : List Char}
    (h : xs.dropWhile p ≠ []) : (xs ++ ys).dropWhile p = xs.dropWhile p ++ ys := by
  induction xs with
  | nil => simp at h
  | cons x xs ih =>
    by_cases hx : p x
    · rw [List.dropWhile_cons, if_pos hx] at h
      rw [List.cons_append, List.dropWhile_cons, if_pos hx, List.dropWhile_cons, if_pos hx]
      exact ih h
    · rw [List.cons_append, List.dropWhile_cons, if_neg hx, List.dropWhile_cons, if_neg hx]
      rfl

theorem trimStart_joinCh_lines {B : List (List Char)} (hB : ∀ b ∈ B, '\n' ∉ b) :
    splitOnCh '\n' (trimStartList (joinCh '\n' B)) =
      (match B.dropWhile isAllWsLine with
       | [] => [[]]
       | b :: bs => trimStartList b :: bs) := by
  induction B with
  | nil => rfl
  | cons b bs ih =>
    by_cases hws : isAllWsLine b
    · have hall : ∀ x ∈ b, isJsWs x = true := List.all_eq_true.mp hws
      have hbnil : b.dropWhile isJsWs = [] := by
        rw [List.dropWhile_eq_nil_iff]
        intro x hx
        exact hall x hx
      cases bs with
      | nil =>
        simp only [joinCh, trimStartList, hbnil, List.dropWhile_cons, if_pos hws]
        rfl
      | cons b2 bs2 =>
        have hrest : ∀ x ∈ b2 :: bs2, '\n' ∉ x :=
          fun x hx => hB x (List.mem_cons_of_mem _ hx)
        have hstep : trimStartList (joinCh '\n' (b :: b2 :: bs2)) =
            trimStartList (joinCh '\n' (b2 :: bs2)) := by
          show (b ++ '\n' :: joinCh '\n' (b2 :: bs2)).dropWhile isJsWs = _
          rw [dropWhile_append_of_all hall, List.dropWhile_cons, if_pos (by decide)]
          rfl
        have hd2 : List.dropWhile isAllWsLine (b :: b2 :: bs2) =
            List.dropWhile isAllWsLine (b2 :: bs2) := by
          rw [List.dropWhile_cons, if_pos hws]
        rw [hstep, ih hrest, hd2]
    · have hbne : b.dropWhile isJsWs ≠ [] := by
        intro hnil
        apply hws
        unfold isAllWsLine
        rw [List.all_eq_true]
        exact List.dropWhile_eq_nil_iff.mp hnil
      have hnlb : '\n' ∉ b := hB b (List.mem_cons_self _ _)
      have hnltb : '\n' ∉ b.dropWhile isJsWs :=
        fun hm => hnlb (mem_of_mem_dropWhile hm)
      cases bs with
      | nil =>
        simp only [joinCh, trimStartList, List.dropWhile_cons, if_neg hws]
        exact splitOnCh_not_mem '\n' _ hnltb
      | cons b2 bs2 =>
        have hrest : ∀ x ∈ b2 :: bs2, '\n' ∉ x :=
          fun x hx => hB x (List.mem_cons_of_mem _ hx)
        have hstep : trimStartList (joinCh '\n' (b :: b2 :: bs2)) =
            b.dropWhile isJsWs ++ '\n' :: joinCh '\n' (b2 :: bs2) := by
          show (b ++ '\n' :: joinCh '\n' (b2 :: bs2)).dropWhile isJsWs = _
          rw [dropWhile_append_of_head hbne]
        rw [hstep, splitOnCh_append_sep '\n' _ _ hnltb,
          splitOnCh_joinCh '\n' _ (by simp) hrest, List.dropWhile_cons, if_neg hws]
        rfl

theorem mem_infoMiddleLines {inner b : List Char} (h : b ∈ infoMiddleLines inner) :
    isColon3 b = false ∧ '\n' ∉ b := by
  unfold infoMiddleLines at h
  obtain ⟨y, ys, h1, h2⟩ := splitOnCh_append_front '\n' "  ".data
    (trimStartList (joinCh '\n' (calloutBodyLines inner))) (by decide)
  rw [h2] at h
  rcases List.mem_cons.mp h with rfl | hys
  · have hy : '\n' ∉ y := not_mem_of_mem_splitOnCh '\n' _ y (by rw [h1]; exact List.mem_cons_self _ _)
    constructor
    · have : "  ".data ++ y = ' ' :: ' ' :: y := rfl
      rw [this]
      exact isColon3_space _
    · intro hm
      rcases List.mem_append.mp hm with hm | hm
      · exact absurd hm (by decide)
      · exact hy hm
  · rw [trimStart_joinCh_lines (fun x hx => calloutBodyLines_nl_free hx)] at h1
    cases hd : (calloutBodyLines inner).dropWhile isAllWsLine with
    | nil =>
      rw [hd] at h1
      cases h1
      simp at hys
    | cons c cs =>
      rw [hd] at h1
      cases h1
      have hcs : b ∈ calloutBodyLines inner := by
        apply mem_of_mem_dropWhile (p := isAllWsLine)
        rw [hd]
        exact List.mem_cons_of_mem _ hys
      exact ⟨calloutBodyLines_colon_free hcs, calloutBodyLines_nl_free hcs⟩

theorem replNote_colon_free : ∀ (inner b : List Char), b ∈ replNote inner →
    isColon3 b = false := by
  intro inner b hb
  unfold replNote at hb
  simp only [List.mem_cons, List.mem_append, List.mem_singleton, List.not_mem_nil,
    or_false] at hb
  rcases hb with rfl | rfl | rfl | hb | rfl
  · decide
  · decide
  · decide
  · exact calloutBodyLines_colon_free hb
  · decide

theorem replTip_colon_free : ∀ (inner b : List Char), b ∈ replTip inner →
    isColon3 b = false := by
  intro inner b hb
  unfold replTip at hb
  simp only [List.mem_cons, List.mem_append, List.mem_singleton, List.not_mem_nil,
    or_false] at hb
  rcases hb with rfl | rfl | rfl | hb | rfl
  · decide
  · decide
  · decide
  · exact calloutBodyLines_colon_free hb
  · decide

theorem replInfo_colon_free : ∀ (inner b : List Char), b ∈ replInfo inner →
    isColon3 b = false := by
  intro inner b hb
  unfold replInfo at hb
  simp only [List.mem_cons, List.mem_append, List.mem_singleton, List.not_mem_nil,
    or_false] at hb
  rcases hb with rfl | hb | rfl
  · decide
  · exact (mem_infoMiddleLines hb).1
  · decide

theorem replNote_nl_free : ∀ (inner b : List Char), b ∈ replNote inner → '\n' ∉ b := by
  intro inner b hb
  unfold replNote at hb
  simp only [List.mem_cons, List.mem_append, List.mem_singleton, List.not_mem_nil,
    or_false] at hb
  rcases hb with rfl | rfl | rfl | hb | rfl
  · decide
  · decide
  · decide
  · exact calloutBodyLines_nl_free hb
  · decide

theorem replTip_nl_free : ∀ (inner b : List Char), b ∈ replTip inner → '\n' ∉ b := by
  intro inner b hb
  unfold replTip at hb
  simp only [List.mem_cons, List.mem_append, List.mem_singleton, List.not_mem_nil,
    or_false] at hb
  rcases hb with rfl | rfl | rfl | hb | rfl
  · decide
  · decide
  · decide
  · exact calloutBodyLines_nl_free hb
  · decide

theorem replInfo_nl_free : ∀ (inner b : List Char), b ∈ replInfo inner → '\n' ∉ b := by
  intro inner b hb
  unfold replInfo at hb
  simp only [List.mem_cons, List.mem_append, List.mem_singleton, List.not_mem_nil,
    or_false] at hb
  rcases hb with rfl | hb | rfl
  · decide
  · exact (mem_infoMiddleLines hb).2
  · decide

theorem replNote_ne_nil : ∀ inner, replNote inner ≠ [] := by
  intro inner
  unfold replNote
  exact List.cons_ne_nil _ _

theorem replTip_ne_nil : ∀ inner, replTip inner ≠ [] := by
  intro inner
  unfold replTip
  exact List.cons_ne_nil _ _

theorem replInfo_ne_nil : ∀ inner, replInfo inner ≠ [] := by
  intro inner
  unfold replInfo
  exact List.cons_ne_nil _ _

theorem isOpenerLine_colon3 {kw l : List Char} (h : isOpenerLine kw l = true) :
    isColon3 l = true := by
  unfold isOpenerLine at h
  simp only [Bool.and_eq_true] at h
  exact h.1

/-! ### The three admonition passes and the converter -/

/-- Opener predicate of the note pattern. -/
def isOpNote : List Char → Bool := isOpenerLine "note".data

/-- Opener predicate of the tip pattern. -/
def isOpTip : List Char → Bool := isOpenerLine "tip".data

/-- Opener predicate of the info pattern. -/
def isOpInfo : List Char → Bool := isOpenerLine "info".data

theorem isOpNote_colon3 : ∀ l, isOpNote l = true → isColon3 l = true := by
  intro l h
  unfold isOpNote at h
  exact isOpenerLine_colon3 h

theorem isOpTip_colon3 : ∀ l, isOpTip l = true → isColon3 l = true := by
  intro l h
  unfold isOpTip at h
  exact isOpenerLine_colon3 h

theorem isOpInfo_colon3 : ∀ l, isOpInfo l = true → isColon3 l = true := by
  intro l h
  unfold isOpInfo at h
  exact isOpenerLine_colon3 h

/-- One whole-text global replace of one admonition kind: split into
lines, run the pass, join back. -/
def convertKind (isOp : List Char → Bool) (repl : List Char → List (List Char))
    (text : List Char) : List Char :=
  joinCh '\n' (convertPass isOp repl (splitOnCh '\n' text))

/-- Embedding of convertNoteTipBlocks (callouts.mjs lines 1 to 37): the
info replace, then the tip replace, then the note replace. -/
def convertNoteTipBlocks (text : String) : String :=
  ⟨convertKind isOpNote replNote
    (convertKind isOpTip replTip
      (convertKind isOpInfo replInfo text.data))⟩

/-- Every line of a pass output is a line of the input or of some
replacement block. -/
theorem convertPass_mem {isOp : List Char → Bool} {repl : List Char → List (List Char)} :
    ∀ (n : Nat) (ls : List (List Char)), ls.length ≤ n →
      ∀ b ∈ convertPass isOp repl ls, b ∈ ls ∨ ∃ inner, b ∈ repl inner := by
  intro n
  induction n with
  | zero =>
    intro ls hlen b hb
    have : ls = [] := List.length_eq_zero.mp (Nat.le_zero.mp hlen)
    subst this
    rw [convertPass_nil] at hb
    cases hb
  | succ n ih =>
    intro ls hlen b hb
    cases ls with
    | nil => rw [convertPass_nil] at hb; cases hb
    | cons l ls =>
      by_cases hop : isOp l
      · cases hfm : findOpenerMatch ls with
        | some pr =>
          cases pr with
          | mk inner after2 =>
            rw [convertPass_cons_op_match hop hfm] at hb
            rcases List.mem_append.mp hb with hb | hb
            · right; exact ⟨inner, hb⟩
            · have hlen2 : after2.length ≤ n := by
                have h1 := findOpenerMatch_length ls inner after2 hfm
                simp only [List.length_cons] at hlen
                omega
              rcases ih after2 hlen2 b hb with hmem | hr
              · left
                obtain ⟨m, pre, c, after, hdec, -, hdw, -⟩ := findOpenerMatch_decomp hfm
                apply List.mem_cons_of_mem
                rw [hdec]
                have hmaf : b ∈ after := by
                  rw [hdw] at hmem
                  exact mem_of_mem_dropWhile hmem
                simp [hmaf]
              · right; exact hr
        | none =>
          rw [convertPass_cons_op_none hop hfm] at hb
          rcases List.mem_cons.mp hb with rfl | hb
          · left; exact List.mem_cons_self _ _
          · rcases ih ls (by simpa [Nat.succ_le_succ_iff] using hlen) b hb with hmem | hr
            · left; exact List.mem_cons_of_mem _ hmem
            · right; exact hr
      · rw [convertPass_cons_not_op (by simpa using hop)] at hb
        rcases List.mem_cons.mp hb with rfl | hb
        · left; exact List.mem_cons_self _ _
        · rcases ih ls (by simpa [Nat.succ_le_succ_iff] using hlen) b hb with hmem | hr
          · left; exact List.mem_cons_of_mem _ hmem
          · right; exact hr

theorem convertPass_ne_nil {isOp : List Char → Bool} {repl : List Char → List (List Char)}
    (HreplNe : ∀ inner, repl inner ≠ []) {l : List Char} {ls : List (List Char)} :
    convertPass isOp repl (l :: ls) ≠ [] := by
  by_cases hop : isOp l
  · cases hfm : findOpenerMatch ls with
    | some pr =>
      cases pr with
      | mk inner after2 =>
        rw [convertPass_cons_op_match hop hfm]
        intro hcon
        exact HreplNe inner (List.append_eq_nil.mp hcon).1
    | none =>
      rw [convertPass_cons_op_none hop hfm]
      exact List.cons_ne_nil _ _
  · rw [convertPass_cons_not_op (by simpa using hop)]
    exact List.cons_ne_nil _ _

/-- The line decomposition of a pass output is the pass on the line
decomposition of the input. -/
theorem convertKind_lines {isOp : List Char → Bool} {repl : List Char → List (List Char)}
    (HreplNe : ∀ inner, repl inner ≠ [])
    (HreplNl : ∀ inner b, b ∈ repl inner → '\n' ∉ b)
    (text : List Char) :
    splitOnCh '\n' (convertKind isOp repl text) =
      convertPass isOp repl (splitOnCh '\n' text) := by
  unfold convertKind
  apply splitOnCh_joinCh
  · cases hs : splitOnCh '\n' text with
    | nil => exact absurd hs (splitOnCh_ne_nil '\n' text)
    | cons l ls =>
      exact convertPass_ne_nil HreplNe
  · intro b hb
    rcases convertPass_mem (splitOnCh '\n' text).length _ le_rfl b hb with hmem | ⟨inner, hr⟩
    · exact not_mem_of_mem_splitOnCh '\n' text b hmem
    · exact HreplNl inner b hr

theorem convertKind_id {isOp : List Char → Bool} {repl : List Char → List (List Char)}
    {t : List Char} {N : List (List Char)}
    (hsplit : splitOnCh '\n' t = N)
    (hpass : convertPass isOp repl N = N) :
    convertKind isOp repl t = t := by
  unfold convertKind
  rw [hsplit, hpass, ← hsplit, joinCh_splitOnCh]

/-- The three passes applied twice equal the three passes applied once. -/
theorem convertAll_idem (s : List Char) :
    convertKind isOpNote replNote (convertKind isOpTip replTip (convertKind isOpInfo replInfo
        (convertKind isOpNote replNote (convertKind isOpTip replTip
          (convertKind isOpInfo replInfo s))))) =
      convertKind isOpNote replNote (convertKind isOpTip replTip
        (convertKind isOpInfo replInfo s)) := by
  have hs2 := @convertKind_lines isOpTip replTip replTip_ne_nil replTip_nl_free
    (convertKind isOpInfo replInfo s)
  have hs3 := @convertKind_lines isOpNote replNote replNote_ne_nil replNote_nl_free
    (convertKind isOpTip replTip (convertKind isOpInfo replInfo s))
  rw [@convertKind_lines isOpInfo replInfo replInfo_ne_nil replInfo_nl_free s] at hs2
  rw [hs2] at hs3
  have hInfoA := hasMatch_convertPass_self replInfo_colon_free isOpInfo_colon3
    (splitOnCh '\n' s).length (splitOnCh '\n' s) le_rfl
  have hTipT := hasMatch_convertPass_self replTip_colon_free isOpTip_colon3
    (convertPass isOpInfo replInfo (splitOnCh '\n' s)).length _ le_rfl
  have hNoteN := hasMatch_convertPass_self replNote_colon_free isOpNote_colon3
    (convertPass isOpTip replTip (convertPass isOpInfo replInfo (splitOnCh '\n' s))).length
    _ le_rfl
  have hInfoT : hasMatch isOpInfo
      (convertPass isOpTip replTip (convertPass isOpInfo replInfo (splitOnCh '\n' s))) =
        false := by
    cases hcon : hasMatch isOpInfo
        (convertPass isOpTip replTip (convertPass isOpInfo replInfo (splitOnCh '\n' s))) with
    | false => rfl
    | true =>
      have h2 := hasMatch_convertPass_other replTip_colon_free replTip_ne_nil isOpInfo_colon3
        (convertPass isOpInfo replInfo (splitOnCh '\n' s)).length _ le_rfl hcon
      rw [hInfoA] at h2
      cases h2
  have hInfoN : hasMatch isOpInfo (convertPass isOpNote replNote
      (convertPass isOpTip replTip (convertPass isOpInfo replInfo (splitOnCh '\n' s)))) =
        false := by
    cases hcon : hasMatch isOpInfo (convertPass isOpNote replNote
        (convertPass isOpTip replTip (convertPass isOpInfo replInfo (splitOnCh '\n' s)))) with
    | false => rfl
    | true =>
      have h2 := hasMatch_convertPass_other replNote_colon_free replNote_ne_nil isOpInfo_colon3
        (convertPass isOpTip replTip (convertPass isOpInfo replInfo (splitOnCh '\n' s))).length
        _ le_rfl hcon
      rw [hInfoT] at h2
      cases h2
  have hTipN : hasMatch isOpTip (convertPass isOpNote replNote
      (convertPass isOpTip replTip (convertPass isOpInfo replInfo (splitOnCh '\n' s)))) =
        false := by
    cases hcon : hasMatch isOpTip (convertPass isOpNote replNote
        (convertPass isOpTip replTip (convertPass isOpInfo replInfo (splitOnCh '\n' s)))) with
    | false => rfl
    | true =>
      have h2 := hasMatch_convertPass_other replNote_colon_free replNote_ne_nil isOpTip_colon3
        (convertPass isOpTip replTip (convertPass isOpInfo replInfo (splitOnCh '\n' s))).length
        _ le_rfl hcon
      rw [hTipT] at h2
      cases h2
  have e1 := convertKind_id hs3 (@convertPass_of_no_match isOpInfo replInfo _ hInfoN)
  have e2 := convertKind_id hs3 (@convertPass_of_no_match isOpTip replTip _ hTipN)
  have e3 := convertKind_id hs3 (@convertPass_of_no_match isOpNote replNote _ hNoteN)
  rw [e1, e2, e3]

/-- C9: convertNoteTipBlocks is idempotent: the callout pre-pass applied
to its own output changes nothing, because every replacement block it
emits is free of three-colon marker lines, so a second run finds no
admonition match of any of the three kinds. -/
theorem C9_callout_conversion_idempotent (text : String) :
    convertNoteTipBlocks (convertNoteTipBlocks text) = convertNoteTipBlocks text := by
  unfold convertNoteTipBlocks
  exact congrArg String.mk (convertAll_idem text.data)

end DocsMigration
